import Mathlib

/-!
Verification of the trade-stream synthesis and aggregation core of this
repository: the Bar-to-Trade Converter (zig-zag interpolation of an OHLCV
bar into simulated trades, with VWAP-preserving volume distribution) and
the Trade Aggregator (folding a trade stream into frames partitioned by
time, tick count, traded volume or traded money, with an optional
duration clamp).

Prices, sizes, timestamps and monetary amounts are modelled as exact
rationals (`ℚ`); the Python implementation uses floats, so equalities
proved here correspond to float identities up to rounding, and the
spec's "within 1e-9 relative tolerance" statements are discharged by
exact equality.
-/

namespace EnvIntraday

/-! ## Bar-to-Trade Converter -/

/-- Modelled from the spec: the `Bar` input record of the missing
`BarToTradeConverter` code (`time_start`, `time_end`, OHLC prices,
`volume`, `money`). -/
structure Bar where
  time_start : ℚ
  time_end : ℚ
  open_ : ℚ
  high : ℚ
  low : ℚ
  close : ℚ
  volume : ℚ
  money : ℚ
  deriving DecidableEq, Repr

/-- Modelled from the spec: input validation of the missing
`BarToTradeConverter` code. A bar is valid when `low ≤ {open, close} ≤ high`,
prices are positive, volume is positive and the bar's VWAP `money/volume`
lies inside the bar's price range (stated multiplicatively to avoid
division). -/
def Bar.valid (b : Bar) : Prop :=
  0 < b.low ∧ b.low ≤ b.open_ ∧ b.open_ ≤ b.high ∧
  b.low ≤ b.close ∧ b.close ≤ b.high ∧
  0 < b.volume ∧ b.low * b.volume ≤ b.money ∧ b.money ≤ b.high * b.volume

instance (b : Bar) : Decidable b.valid := by
  unfold Bar.valid; infer_instance

/-- Modelled from the spec: the price increment of the missing
`BarToTradeConverter` code, `step = spread * (high + low) / 2`. -/
def stepOf (spread high low : ℚ) : ℚ := spread * (high + low) / 2

/-- Modelled from the spec: the number of interpolated trades of one
monotonic segment of the missing `BarToTradeConverter` code: walking from
`a` toward `b` in increments of `step`, start included, end excluded,
yields `⌈|b - a| / step⌉` points. -/
def numSteps (a b step : ℚ) : ℕ := (⌈|b - a| / step⌉).toNat

/-- Modelled from the spec: one monotonic segment walk of the missing
`BarToTradeConverter` code: from the segment's start price `a` toward its
end price `b` in increments of `step`, start included, end excluded,
never overshooting (for `a = 1`, `b = 5`, `step = 1` this yields
`[1, 2, 3, 4]`). -/
def segTrades (a b step : ℚ) : List ℚ :=
  if a ≤ b then (List.range (numSteps a b step)).map (fun k : ℕ => a + (k : ℚ) * step)
  else (List.range (numSteps a b step)).map (fun k : ℕ => a - (k : ℚ) * step)

/-- Modelled from the spec: the price sequence of the missing
`BarToTradeConverter._zigzag_open_high_low_close` (zig-zag 1,
open → high → low → close); each segment's start is included, its end is
included only as the next segment's start, and the bar's close is always
emitted as the final trade. -/
def zigzagOpenHighLowClose (o h l c spread : ℚ) : List ℚ :=
  let step := stepOf spread h l
  segTrades o h step ++ segTrades h l step ++ segTrades l c step ++ [c]

/-- Modelled from the spec: the price sequence of the missing
zig-zag 2 routine of `BarToTradeConverter`
(open → low → high → close). -/
def zigzagOpenLowHighClose (o h l c spread : ℚ) : List ℚ :=
  let step := stepOf spread h l
  segTrades o l step ++ segTrades l h step ++ segTrades h c step ++ [c]

/-- Modelled from the spec: the ordered price sequence produced by the
missing `BarToTradeConverter` code for a bar; `pathA = true` selects
zig-zag 1 (open → high → low → close), `pathA = false` selects zig-zag 2
(open → low → high → close). -/
def converterPrices (b : Bar) (spread : ℚ) (pathA : Bool) : List ℚ :=
  if pathA then zigzagOpenHighLowClose b.open_ b.high b.low b.close spread
  else zigzagOpenLowHighClose b.open_ b.high b.low b.close spread

/-- Number of trades generated by the Converter for a bar. -/
def numTrades (b : Bar) (spread : ℚ) (pathA : Bool) : ℕ :=
  (converterPrices b spread pathA).length

/-- Largest element of a price list (`0` for the empty list). -/
def pmaxOf : List ℚ → ℚ
  | [] => 0
  | p :: r => r.foldl max p

/-- Smallest element of a price list (`0` for the empty list). -/
def pminOf : List ℚ → ℚ
  | [] => 0
  | p :: r => r.foldl min p

/-- Modelled from the spec: the volume-distribution procedure of the
missing `BarToTradeConverter` code. Starting from uniform per-trade
volume `V/n`, per-trade volumes are scaled toward the extreme price on
the side of the target VWAP `T = M/V` (the maximum price when `T` is at
least the mean price, the minimum price otherwise), renormalizing so that
the total volume is exactly `V` and the total money is exactly `M`.
`refPrice` is the extreme price toward which volume is shifted. -/
def refPrice (ps : List ℚ) (V M : ℚ) : ℚ :=
  if ps.sum / ps.length ≤ M / V then pmaxOf ps else pminOf ps

/-- Scaling factor of the volume redistribution: how far the target VWAP
`M/V` sits from the mean price, relative to how far the reference extreme
price sits from the mean. -/
def lamOf (ps : List ℚ) (V M : ℚ) : ℚ :=
  (M / V - ps.sum / ps.length) / (refPrice ps V M - ps.sum / ps.length)

/-- Modelled from the spec: per-trade volumes assigned by the missing
`BarToTradeConverter` code: a blend of the uniform distribution `V/n`
with a point mass `lam · V` on the reference extreme price, split evenly
among the trades at that price. -/
def distVolumes (ps : List ℚ) (V M : ℚ) : List ℚ :=
  ps.map (fun p =>
    (1 - lamOf ps V M) * (V / ps.length) +
    if p = refPrice ps V M then
      lamOf ps V M * V / (ps.count (refPrice ps V M) : ℚ)
    else 0)

/-- Volume-weighted average price of a sequence of trades given as a
price list and a size list: `Σ (price · size) / Σ size`. -/
def vwap (ps vs : List ℚ) : ℚ :=
  (List.zipWith (fun p v => p * v) ps vs).sum / vs.sum

/-- The fixed example bar of the documentation:
`open = 100.2`, `high = 100.4`, `low = 100.1`, `close = 100.3`,
`volume = 1000`; `money` chosen so that the VWAP is `100.25`. -/
def fixedBar : Bar :=
  { time_start := 0, time_end := 60,
    open_ := 100.2, high := 100.4, low := 100.1, close := 100.3,
    volume := 1000, money := 100250 }

/-! ## Trade Aggregator -/

/-- Modelled from the spec: the `Trade` unit event consumed by the
missing `IntervalTradeAggregator` code. -/
structure Trade where
  timestamp : ℚ
  price : ℚ
  size : ℚ
  deriving DecidableEq, Repr

/-- Modelled from the spec: the `Frame` output record of the missing
`IntervalTradeAggregator` code. -/
structure Frame where
  time_start : ℚ
  time_end : ℚ
  ticks : ℕ
  open_ : ℚ
  high : ℚ
  low : ℚ
  close : ℚ
  volume : ℚ
  money : ℚ
  deriving DecidableEq, Repr

/-- Modelled from the spec: opening a frame at the first trade of a new
window: `time_start = trade.timestamp`, `open = high = low = close =
trade.price`, `volume = trade.size`, `ticks = 1`. -/
def initFrame (t : Trade) : Frame :=
  { time_start := t.timestamp, time_end := t.timestamp, ticks := 1,
    open_ := t.price, high := t.price, low := t.price, close := t.price,
    volume := t.size, money := t.price * t.size }

/-- Modelled from the spec: folding a trade into the open frame:
`high = max high price`, `low = min low price`, `close = price`,
`volume += size`, `money += price·size`, `ticks += 1`,
`time_end = trade.timestamp`. -/
def foldTrade (f : Frame) (t : Trade) : Frame :=
  { f with
    high := max f.high t.price,
    low := min f.low t.price,
    close := t.price,
    volume := f.volume + t.size,
    money := f.money + t.price * t.size,
    ticks := f.ticks + 1,
    time_end := t.timestamp }

/-- Modelled from the spec: the four partitioning methods of the missing
`IntervalTradeAggregator` code, as a closed enumeration. -/
inductive Method
  | time
  | tick
  | volume
  | money
  deriving DecidableEq, Repr

/-- Modelled from the spec: the constructor configuration of the missing
`IntervalTradeAggregator` code: a method, an interval whose meaning
depends on the method, and an optional `(min, max)` duration clamp. -/
structure AggConfig where
  method : Method
  interval : ℚ
  duration : Option (ℚ × ℚ)
  deriving DecidableEq, Repr

/-- Modelled from the spec: the per-method boundary predicate of the
missing `IntervalTradeAggregator` code, evaluated on the frame with the
incoming trade already folded in (so `time_end` is the incoming trade's
timestamp). -/
def boundaryReached (cfg : AggConfig) (f : Frame) : Bool :=
  match cfg.method with
  | Method.time => decide (cfg.interval ≤ f.time_end - f.time_start)
  | Method.tick => decide (cfg.interval ≤ (f.ticks : ℚ))
  | Method.volume => decide (cfg.interval ≤ f.volume)
  | Method.money => decide (cfg.interval ≤ f.money)

/-- Modelled from the spec: the sealing decision of the missing
`IntervalTradeAggregator` code, checked after folding the incoming
trade. Without a duration constraint it is the primary boundary; with
`duration = (min, max)` the frame seals once `max` wall-clock time has
elapsed regardless of the boundary, and never seals before `min` has
elapsed even when the boundary is reached. -/
def shouldSeal (cfg : AggConfig) (f : Frame) : Bool :=
  match cfg.duration with
  | none => boundaryReached cfg f
  | some (dmin, dmax) =>
    decide (dmax ≤ f.time_end - f.time_start) ||
      (boundaryReached cfg f && decide (dmin ≤ f.time_end - f.time_start))

/-- Aggregator state: at most one open frame. -/
structure AggState where
  openFrame : Option Frame
  deriving DecidableEq, Repr

/-- Error message for a trade older than the open frame's start. -/
def orderError : String := "trade is older than the open frame"

/-- Modelled from the spec: one step of the `aggregate` operation of the
missing `IntervalTradeAggregator` code, for a single trade. A trade older
than the open frame's `time_start` is a fatal ordering violation. The
trade is folded into the open frame (or opens a new one), the boundary is
checked after folding, and when it holds the frame containing the
crossing trade is sealed and emitted in the same call. -/
def aggregate (cfg : AggConfig) (s : AggState) (t : Trade) :
    Except String (AggState × Option Frame) :=
  match s.openFrame with
  | none =>
    let f := initFrame t
    if shouldSeal cfg f then Except.ok (⟨none⟩, some f)
    else Except.ok (⟨some f⟩, none)
  | some f =>
    if t.timestamp < f.time_start then Except.error orderError
    else
      let f2 := foldTrade f t
      if shouldSeal cfg f2 then Except.ok (⟨none⟩, some f2)
      else Except.ok (⟨some f2⟩, none)

/-- Modelled from the spec: `finish` force-seals the currently open
frame at end of stream and returns it. -/
def finish (s : AggState) : AggState × Option Frame := (⟨none⟩, s.openFrame)

/-- Feed a list of trades one at a time, collecting sealed frames in
order. -/
def runAgg (cfg : AggConfig) (s : AggState) :
    List Trade → Except String (AggState × List Frame)
  | [] => Except.ok (s, [])
  | t :: ts =>
    match aggregate cfg s t with
    | Except.error e => Except.error e
    | Except.ok (s1, out) =>
      match runAgg cfg s1 ts with
      | Except.error e => Except.error e
      | Except.ok (s2, fs) => Except.ok (s2, out.toList ++ fs)

/-- All frames produced for a trade stream: run the aggregator from the
initial state and force-seal the leftover frame at end of stream. -/
def getFrames (cfg : AggConfig) (trades : List Trade) :
    Except String (List Frame) :=
  match runAgg cfg ⟨none⟩ trades with
  | Except.error e => Except.error e
  | Except.ok (s, fs) => Except.ok (fs ++ (finish s).2.toList)

/-- The frame summarizing a window (a list of trades folded in order);
junk value for the empty window. -/
def frameOfW : List Trade → Frame
  | [] => ⟨0, 0, 0, 0, 0, 0, 0, 0, 0⟩
  | t :: ts => ts.foldl foldTrade (initFrame t)

/-- Window-level mirror of `aggregate`: the open frame is represented by
the list of trades folded into it. -/
def waggregate (cfg : AggConfig) (w : List Trade) (t : Trade) :
    Except String (List Trade × Option (List Trade)) :=
  match w with
  | [] =>
    if shouldSeal cfg (frameOfW [t]) then Except.ok ([], some [t])
    else Except.ok ([t], none)
  | t0 :: w' =>
    if t.timestamp < (frameOfW (t0 :: w')).time_start then Except.error orderError
    else
      let w2 := (t0 :: w') ++ [t]
      if shouldSeal cfg (frameOfW w2) then Except.ok ([], some w2)
      else Except.ok (w2, none)

/-- Window-level mirror of `runAgg`. -/
def runWin (cfg : AggConfig) (w : List Trade) :
    List Trade → Except String (List Trade × List (List Trade))
  | [] => Except.ok (w, [])
  | t :: ts =>
    match waggregate cfg w t with
    | Except.error e => Except.error e
    | Except.ok (w1, out) =>
      match runWin cfg w1 ts with
      | Except.error e => Except.error e
      | Except.ok (w2, ws) => Except.ok (w2, out.toList ++ ws)

/-- The partition of a trade stream into the windows of the emitted
frames, including the leftover window force-sealed at end of stream. -/
def getWindows (cfg : AggConfig) (trades : List Trade) :
    Except String (List (List Trade)) :=
  match runWin cfg [] trades with
  | Except.error e => Except.error e
  | Except.ok (w, ws) => Except.ok (ws ++ if w.isEmpty then [] else [w])

/-- The window-level state corresponds to the aggregator state. -/
def toState : List Trade → AggState
  | [] => ⟨none⟩
  | t :: ts => ⟨some (frameOfW (t :: ts))⟩

/-- A trade stream is in non-decreasing timestamp order. -/
def SortedT (ts : List Trade) : Prop :=
  ts.Chain' (fun a b => a.timestamp ≤ b.timestamp)

instance (ts : List Trade) : Decidable (SortedT ts) :=
  inferInstanceAs
    (Decidable (ts.Chain' (fun a b : Trade => a.timestamp ≤ b.timestamp)))

/-- The invariant of an emitted frame with respect to the window (list of
trades) folded into it: `open` is the first trade's price, `close` the
last's, `high`/`low` the extrema, `volume`/`money` the sums, `ticks` the
trade count, and `time_start`/`time_end` the first/last timestamps. -/
def FrameStats (w : List Trade) : Prop :=
  w ≠ [] ∧
  (∀ t0 ∈ w.head?, (frameOfW w).open_ = t0.price ∧
    (frameOfW w).time_start = t0.timestamp) ∧
  (∀ t1 ∈ w.getLast?, (frameOfW w).close = t1.price ∧
    (frameOfW w).time_end = t1.timestamp) ∧
  (frameOfW w).volume = (w.map Trade.size).sum ∧
  (frameOfW w).money = (w.map (fun u => u.price * u.size)).sum ∧
  (frameOfW w).ticks = w.length ∧
  ((frameOfW w).high ∈ w.map Trade.price ∧
    ∀ u ∈ w, u.price ≤ (frameOfW w).high) ∧
  ((frameOfW w).low ∈ w.map Trade.price ∧
    ∀ u ∈ w, (frameOfW w).low ≤ u.price)

end EnvIntraday

namespace EnvIntraday

/-! ## List extrema helper lemmas -/

theorem foldl_max_le {l : List ℚ} {acc c : ℚ} (h1 : acc ≤ c)
    (h2 : ∀ a ∈ l, a ≤ c) : l.foldl max acc ≤ c := by
  induction l generalizing acc with
  | nil => simpa using h1
  | cons x xs ih =>
    simp only [List.foldl_cons]
    exact ih (max_le h1 (h2 x (List.mem_cons_self x xs)))
      (fun a ha => h2 a (List.mem_cons_of_mem x ha))

theorem le_foldl_max_acc (l : List ℚ) (acc : ℚ) : acc ≤ l.foldl max acc := by
  induction l generalizing acc with
  | nil => simp
  | cons x xs ih =>
    simp only [List.foldl_cons]
    exact le_trans (le_max_left acc x) (ih (max acc x))

theorem le_foldl_max_mem {l : List ℚ} {a : ℚ} (h : a ∈ l) (acc : ℚ) :
    a ≤ l.foldl max acc := by
  induction l generalizing acc with
  | nil => cases h
  | cons x xs ih =>
    simp only [List.foldl_cons]
    rcases List.mem_cons.mp h with rfl | h2
    · exact le_trans (le_max_right acc a) (le_foldl_max_acc xs (max acc a))
    · exact ih h2 (max acc x)

theorem foldl_max_acc_or_mem (l : List ℚ) (acc : ℚ) :
    l.foldl max acc = acc ∨ l.foldl max acc ∈ l := by
  induction l generalizing acc with
  | nil => simp
  | cons x xs ih =>
    simp only [List.foldl_cons]
    rcases ih (max acc x) with h | h
    · rcases le_total acc x with hc | hc
      · right; rw [h, max_eq_right hc]; exact List.mem_cons_self x xs
      · left; rw [h, max_eq_left hc]
    · right; exact List.mem_cons_of_mem x h

theorem le_pmaxOf {l : List ℚ} {a : ℚ} (h : a ∈ l) : a ≤ pmaxOf l := by
  cases l with
  | nil => cases h
  | cons x xs =>
    rcases List.mem_cons.mp h with rfl | h2
    · exact le_foldl_max_acc xs a
    · exact le_foldl_max_mem h2 x

theorem pmaxOf_mem {l : List ℚ} (h : l ≠ []) : pmaxOf l ∈ l := by
  cases l with
  | nil => exact absurd rfl h
  | cons x xs =>
    rcases foldl_max_acc_or_mem xs x with h2 | h2
    · rw [pmaxOf, h2]; exact List.mem_cons_self x xs
    · exact List.mem_cons_of_mem x h2

theorem pmaxOf_le {l : List ℚ} {c : ℚ} (h : l ≠ []) (h2 : ∀ a ∈ l, a ≤ c) :
    pmaxOf l ≤ c := by
  cases l with
  | nil => exact absurd rfl h
  | cons x xs =>
    exact foldl_max_le (h2 x (List.mem_cons_self x xs))
      (fun a ha => h2 a (List.mem_cons_of_mem x ha))

theorem foldl_min_ge {l : List ℚ} {acc c : ℚ} (h1 : c ≤ acc)
    (h2 : ∀ a ∈ l, c ≤ a) : c ≤ l.foldl min acc := by
  induction l generalizing acc with
  | nil => simpa using h1
  | cons x xs ih =>
    simp only [List.foldl_cons]
    exact ih (le_min h1 (h2 x (List.mem_cons_self x xs)))
      (fun a ha => h2 a (List.mem_cons_of_mem x ha))

theorem foldl_min_le_acc (l : List ℚ) (acc : ℚ) : l.foldl min acc ≤ acc := by
  induction l generalizing acc with
  | nil => simp
  | cons x xs ih =>
    simp only [List.foldl_cons]
    exact le_trans (ih (min acc x)) (min_le_left acc x)

theorem foldl_min_le_mem {l : List ℚ} {a : ℚ} (h : a ∈ l) (acc : ℚ) :
    l.foldl min acc ≤ a := by
  induction l generalizing acc with
  | nil => cases h
  | cons x xs ih =>
    simp only [List.foldl_cons]
    rcases List.mem_cons.mp h with rfl | h2
    · exact le_trans (foldl_min_le_acc xs (min acc a)) (min_le_right acc a)
    · exact ih h2 (min acc x)

theorem foldl_min_acc_or_mem (l : List ℚ) (acc : ℚ) :
    l.foldl min acc = acc ∨ l.foldl min acc ∈ l := by
  induction l generalizing acc with
  | nil => simp
  | cons x xs ih =>
    simp only [List.foldl_cons]
    rcases ih (min acc x) with h | h
    · rcases le_total acc x with hc | hc
      · left; rw [h, min_eq_left hc]
      · right; rw [h, min_eq_right hc]; exact List.mem_cons_self x xs
    · right; exact List.mem_cons_of_mem x h

theorem pminOf_le_mem {l : List ℚ} {a : ℚ} (h : a ∈ l) : pminOf l ≤ a := by
  cases l with
  | nil => cases h
  | cons x xs =>
    rcases List.mem_cons.mp h with rfl | h2
    · exact foldl_min_le_acc xs a
    · exact foldl_min_le_mem h2 x

theorem pminOf_mem {l : List ℚ} (h : l ≠ []) : pminOf l ∈ l := by
  cases l with
  | nil => exact absurd rfl h
  | cons x xs =>
    rcases foldl_min_acc_or_mem xs x with h2 | h2
    · rw [pminOf, h2]; exact List.mem_cons_self x xs
    · exact List.mem_cons_of_mem x h2

theorem le_pminOf {l : List ℚ} {c : ℚ} (h : l ≠ []) (h2 : ∀ a ∈ l, c ≤ a) :
    c ≤ pminOf l := by
  cases l with
  | nil => exact absurd rfl h
  | cons x xs =>
    exact foldl_min_ge (h2 x (List.mem_cons_self x xs))
      (fun a ha => h2 a (List.mem_cons_of_mem x ha))

theorem head?_append_some {α : Type} {l1 l2 : List α} {a : α}
    (h : l1.head? = some a) : (l1 ++ l2).head? = some a := by
  cases l1 with
  | nil => simp at h
  | cons x xs => simpa using h

/-! ## Segment walk lemmas -/

theorem numSteps_self (a step : ℚ) : numSteps a a step = 0 := by
  simp [numSteps]

theorem segTrades_self (a step : ℚ) : segTrades a a step = [] := by
  simp [segTrades, numSteps_self]

theorem numSteps_pos {a b step : ℚ} (hs : 0 < step) (hne : a ≠ b) :
    1 ≤ numSteps a b step := by
  have habs : 0 < |b - a| := abs_pos.mpr (sub_ne_zero.mpr (Ne.symm hne))
  have hq : 0 < |b - a| / step := div_pos habs hs
  have hc : (1 : ℤ) ≤ ⌈|b - a| / step⌉ := by
    exact_mod_cast Int.ceil_pos.mpr hq
  unfold numSteps
  omega

theorem segTrades_ne_nil {a b step : ℚ} (hs : 0 < step) (hne : a ≠ b) :
    segTrades a b step ≠ [] := by
  have h1 := numSteps_pos hs hne
  unfold segTrades
  split <;>
    simp only [ne_eq, List.map_eq_nil_iff, List.range_eq_nil] <;> omega

theorem segTrades_head {a b step : ℚ} (hs : 0 < step) (hne : a ≠ b) :
    (segTrades a b step).head? = some a := by
  have h1 := numSteps_pos hs hne
  obtain ⟨m, hm⟩ : ∃ m, numSteps a b step = m + 1 :=
    ⟨numSteps a b step - 1, by omega⟩
  unfold segTrades
  rw [hm, List.range_succ_eq_map]
  split <;> simp

theorem segTrades_length (a b step : ℚ) :
    (segTrades a b step).length = numSteps a b step := by
  unfold segTrades
  split <;> simp

/-- Every point of the walk lies between the segment's endpoints and is
strictly before the end point. -/
theorem segTrades_mem_bounds {a b step : ℚ} (hs : 0 < step) :
    ∀ p ∈ segTrades a b step, min a b ≤ p ∧ p ≤ max a b ∧ p ≠ b := by
  intro p hp
  rcases eq_or_ne a b with rfl | hne
  · rw [segTrades_self] at hp; cases hp
  have hstep : step ≠ 0 := ne_of_gt hs
  unfold segTrades at hp
  by_cases hab : a ≤ b
  · rw [if_pos hab] at hp
    obtain ⟨k, hk, rfl⟩ := List.mem_map.mp hp
    have hkn := List.mem_range.mp hk
    have halt : a < b := lt_of_le_of_ne hab hne
    -- k + 1 ≤ numSteps, and numSteps = ⌈(b - a)/step⌉
    have habs : |b - a| = b - a := abs_of_pos (sub_pos.mpr halt)
    have hcpos : 0 < ⌈(b - a) / step⌉ :=
      Int.ceil_pos.mpr (div_pos (sub_pos.mpr halt) hs)
    have htn : numSteps a b step = (⌈(b - a) / step⌉).toNat := by
      unfold numSteps; rw [habs]
    have hkZ : (k : ℤ) < ⌈(b - a) / step⌉ := by
      rw [htn] at hkn; omega
    have hkQ : (k : ℚ) ≤ (⌈(b - a) / step⌉ : ℚ) - 1 := by
      have : (k : ℤ) ≤ ⌈(b - a) / step⌉ - 1 := by omega
      exact_mod_cast this
    have hceil : ((⌈(b - a) / step⌉ : ℚ)) - 1 < (b - a) / step := by
      have := Int.ceil_lt_add_one (α := ℚ) ((b - a) / step)
      linarith
    have hklt : (k : ℚ) * step < b - a := by
      have h1 : (k : ℚ) < (b - a) / step := lt_of_le_of_lt hkQ hceil
      calc (k : ℚ) * step < ((b - a) / step) * step :=
            (mul_lt_mul_of_pos_right h1 hs)
        _ = b - a := div_mul_cancel₀ _ hstep
    have hk0 : (0 : ℚ) ≤ (k : ℚ) * step :=
      mul_nonneg (Nat.cast_nonneg k) (le_of_lt hs)
    refine ⟨?_, ?_, ?_⟩
    · rw [min_eq_left hab]; linarith
    · rw [max_eq_right hab]; linarith
    · intro hcon; linarith
  · rw [if_neg hab] at hp
    push_neg at hab
    obtain ⟨k, hk, rfl⟩ := List.mem_map.mp hp
    have hkn := List.mem_range.mp hk
    have habs : |b - a| = a - b := by
      rw [abs_of_neg (sub_neg.mpr hab)]; ring
    have htn : numSteps a b step = (⌈(a - b) / step⌉).toNat := by
      unfold numSteps; rw [habs]
    have hkZ : (k : ℤ) < ⌈(a - b) / step⌉ := by
      rw [htn] at hkn; omega
    have hkQ : (k : ℚ) ≤ (⌈(a - b) / step⌉ : ℚ) - 1 := by
      have : (k : ℤ) ≤ ⌈(a - b) / step⌉ - 1 := by omega
      exact_mod_cast this
    have hceil : ((⌈(a - b) / step⌉ : ℚ)) - 1 < (a - b) / step := by
      have := Int.ceil_lt_add_one (α := ℚ) ((a - b) / step)
      linarith
    have hklt : (k : ℚ) * step < a - b := by
      have h1 : (k : ℚ) < (a - b) / step := lt_of_le_of_lt hkQ hceil
      calc (k : ℚ) * step < ((a - b) / step) * step :=
            (mul_lt_mul_of_pos_right h1 hs)
        _ = a - b := div_mul_cancel₀ _ hstep
    have hk0 : (0 : ℚ) ≤ (k : ℚ) * step :=
      mul_nonneg (Nat.cast_nonneg k) (le_of_lt hs)
    refine ⟨?_, ?_, ?_⟩
    · rw [min_eq_right (le_of_lt hab)]; linarith
    · rw [max_eq_left (le_of_lt hab)]; linarith
    · intro hcon; linarith

theorem segTrades_end_not_mem {a b step : ℚ} (hs : 0 < step) :
    b ∉ segTrades a b step := by
  intro hmem
  exact (segTrades_mem_bounds hs b hmem).2.2 rfl

theorem numSteps_anti {a b s1 s2 : ℚ} (h1 : 0 < s1) (h12 : s1 ≤ s2) :
    numSteps a b s2 ≤ numSteps a b s1 := by
  have h2 : 0 < s2 := lt_of_lt_of_le h1 h12
  have hdiv : |b - a| / s2 ≤ |b - a| / s1 := by
    rw [div_eq_mul_inv, div_eq_mul_inv]
    exact mul_le_mul_of_nonneg_left
      (inv_anti₀ h1 h12) (abs_nonneg _)
  unfold numSteps
  exact Int.toNat_le_toNat (Int.ceil_le_ceil hdiv)

end EnvIntraday

namespace EnvIntraday

/-! ## Converter-level helper lemmas -/

theorem stepOf_pos {spread high low : ℚ} (hs : 0 < spread) (hl : 0 < low)
    (hlh : low ≤ high) : 0 < stepOf spread high low := by
  unfold stepOf
  have : 0 < high + low := by linarith
  positivity

theorem converter_ne_nil (b : Bar) (spread : ℚ) (pathA : Bool) :
    converterPrices b spread pathA ≠ [] := by
  unfold converterPrices zigzagOpenHighLowClose zigzagOpenLowHighClose
  split <;> simp

theorem converter_last (b : Bar) (spread : ℚ) (pathA : Bool) :
    (converterPrices b spread pathA).getLast? = some b.close := by
  unfold converterPrices zigzagOpenHighLowClose zigzagOpenLowHighClose
  split <;>
    rw [List.append_assoc, List.append_assoc, List.getLast?_append] <;> simp

theorem zz_head (x y z c st : ℚ) (hst : 0 < st) :
    (segTrades x y st ++ (segTrades y z st ++ (segTrades z c st ++ [c]))).head? =
      some x := by
  by_cases hxy : x = y
  · subst hxy
    rw [segTrades_self, List.nil_append]
    by_cases hyz : x = z
    · subst hyz
      rw [segTrades_self, List.nil_append]
      by_cases hzc : x = c
      · subst hzc
        rw [segTrades_self, List.nil_append]
        rfl
      · exact head?_append_some (segTrades_head hst hzc)
    · exact head?_append_some (segTrades_head hst hyz)
  · exact head?_append_some (segTrades_head hst hxy)

theorem converter_head (b : Bar) (spread : ℚ) (pathA : Bool)
    (hb : b.valid) (hs : 0 < spread) :
    (converterPrices b spread pathA).head? = some b.open_ := by
  obtain ⟨hl0, hlo, hoh, hlc, hch, _, _, _⟩ := hb
  have hlh : b.low ≤ b.high := le_trans hlo hoh
  have hstep : 0 < stepOf spread b.high b.low := stepOf_pos hs hl0 hlh
  unfold converterPrices zigzagOpenHighLowClose zigzagOpenLowHighClose
  cases pathA with
  | true =>
    simp only [if_pos]
    rw [List.append_assoc, List.append_assoc]
    exact zz_head _ _ _ _ _ hstep
  | false =>
    simp only [Bool.false_eq_true, if_neg, not_false_iff]
    rw [List.append_assoc, List.append_assoc]
    exact zz_head _ _ _ _ _ hstep

theorem converter_all_le_high (b : Bar) (spread : ℚ) (pathA : Bool)
    (hb : b.valid) (hs : 0 < spread) :
    ∀ p ∈ converterPrices b spread pathA, p ≤ b.high := by
  obtain ⟨hl0, hlo, hoh, hlc, hch, _, _, _⟩ := hb
  have hlh : b.low ≤ b.high := le_trans hlo hoh
  have hstep : 0 < stepOf spread b.high b.low := stepOf_pos hs hl0 hlh
  intro p hp
  unfold converterPrices zigzagOpenHighLowClose zigzagOpenLowHighClose at hp
  cases pathA with
  | true =>
    simp only [if_pos, List.mem_append, List.mem_singleton] at hp
    rcases hp with ((h1 | h2) | h3) | h4
    · have := (segTrades_mem_bounds hstep p h1).2.1
      calc p ≤ max b.open_ b.high := this
        _ = b.high := max_eq_right hoh
    · have := (segTrades_mem_bounds hstep p h2).2.1
      calc p ≤ max b.high b.low := this
        _ = b.high := max_eq_left hlh
    · have := (segTrades_mem_bounds hstep p h3).2.1
      calc p ≤ max b.low b.close := this
        _ = b.close := max_eq_right hlc
        _ ≤ b.high := hch
    · rw [h4]; exact hch
  | false =>
    simp only [Bool.false_eq_true, if_neg, not_false_iff, List.mem_append,
      List.mem_singleton] at hp
    rcases hp with ((h1 | h2) | h3) | h4
    · have := (segTrades_mem_bounds hstep p h1).2.1
      calc p ≤ max b.open_ b.low := this
        _ ≤ b.high := max_le hoh hlh
    · have := (segTrades_mem_bounds hstep p h2).2.1
      calc p ≤ max b.low b.high := this
        _ = b.high := max_eq_right hlh
    · have := (segTrades_mem_bounds hstep p h3).2.1
      calc p ≤ max b.high b.close := this
        _ = b.high := max_eq_left hch
    · rw [h4]; exact hch

theorem converter_all_ge_low (b : Bar) (spread : ℚ) (pathA : Bool)
    (hb : b.valid) (hs : 0 < spread) :
    ∀ p ∈ converterPrices b spread pathA, b.low ≤ p := by
  obtain ⟨hl0, hlo, hoh, hlc, hch, _, _, _⟩ := hb
  have hlh : b.low ≤ b.high := le_trans hlo hoh
  have hstep : 0 < stepOf spread b.high b.low := stepOf_pos hs hl0 hlh
  intro p hp
  unfold converterPrices zigzagOpenHighLowClose zigzagOpenLowHighClose at hp
  cases pathA with
  | true =>
    simp only [if_pos, List.mem_append, List.mem_singleton] at hp
    rcases hp with ((h1 | h2) | h3) | h4
    · have := (segTrades_mem_bounds hstep p h1).1
      calc b.low ≤ min b.open_ b.high := le_min hlo hlh
        _ ≤ p := this
    · have := (segTrades_mem_bounds hstep p h2).1
      calc b.low = min b.high b.low := (min_eq_right hlh).symm
        _ ≤ p := this
    · have := (segTrades_mem_bounds hstep p h3).1
      calc b.low = min b.low b.close := (min_eq_left hlc).symm
        _ ≤ p := this
    · rw [h4]; exact hlc
  | false =>
    simp only [Bool.false_eq_true, if_neg, not_false_iff, List.mem_append,
      List.mem_singleton] at hp
    rcases hp with ((h1 | h2) | h3) | h4
    · have := (segTrades_mem_bounds hstep p h1).1
      calc b.low = min b.open_ b.low := (min_eq_right hlo).symm
        _ ≤ p := this
    · have := (segTrades_mem_bounds hstep p h2).1
      calc b.low = min b.low b.high := (min_eq_left hlh).symm
        _ ≤ p := this
    · have := (segTrades_mem_bounds hstep p h3).1
      calc b.low ≤ min b.high b.close := le_min hlh hlc
        _ ≤ p := this
    · rw [h4]; exact hlc

theorem converter_high_mem (b : Bar) (spread : ℚ) (pathA : Bool)
    (hb : b.valid) (hs : 0 < spread) :
    b.high ∈ converterPrices b spread pathA := by
  obtain ⟨hl0, hlo, hoh, hlc, hch, _, _, _⟩ := hb
  have hlh : b.low ≤ b.high := le_trans hlo hoh
  have hstep : 0 < stepOf spread b.high b.low := stepOf_pos hs hl0 hlh
  unfold converterPrices zigzagOpenHighLowClose zigzagOpenLowHighClose
  cases pathA with
  | true =>
    simp only [if_pos, List.mem_append, List.mem_singleton]
    by_cases h2 : b.high = b.low
    · right
      have : b.close = b.high := le_antisymm hch (h2 ▸ hlc)
      exact this.symm
    · left; left; right
      exact List.mem_of_mem_head?
        ((segTrades_head hstep h2) ▸ Option.mem_def.mpr rfl)
  | false =>
    simp only [Bool.false_eq_true, if_neg, not_false_iff, List.mem_append,
      List.mem_singleton]
    by_cases h3 : b.high = b.close
    · right; exact h3
    · left; right
      exact List.mem_of_mem_head?
        ((segTrades_head hstep h3) ▸ Option.mem_def.mpr rfl)

theorem converter_low_mem (b : Bar) (spread : ℚ) (pathA : Bool)
    (hb : b.valid) (hs : 0 < spread) :
    b.low ∈ converterPrices b spread pathA := by
  obtain ⟨hl0, hlo, hoh, hlc, hch, _, _, _⟩ := hb
  have hlh : b.low ≤ b.high := le_trans hlo hoh
  have hstep : 0 < stepOf spread b.high b.low := stepOf_pos hs hl0 hlh
  unfold converterPrices zigzagOpenHighLowClose zigzagOpenLowHighClose
  cases pathA with
  | true =>
    simp only [if_pos, List.mem_append, List.mem_singleton]
    by_cases h3 : b.low = b.close
    · right; exact h3
    · left; right
      exact List.mem_of_mem_head?
        ((segTrades_head hstep h3) ▸ Option.mem_def.mpr rfl)
  | false =>
    simp only [Bool.false_eq_true, if_neg, not_false_iff, List.mem_append,
      List.mem_singleton]
    by_cases h2 : b.low = b.high
    · right
      have : b.close = b.low := le_antisymm (h2 ▸ hch) hlc
      exact this.symm
    · left; left; right
      exact List.mem_of_mem_head?
        ((segTrades_head hstep h2) ▸ Option.mem_def.mpr rfl)

theorem converter_max (b : Bar) (spread : ℚ) (pathA : Bool)
    (hb : b.valid) (hs : 0 < spread) :
    pmaxOf (converterPrices b spread pathA) = b.high :=
  le_antisymm
    (pmaxOf_le (converter_ne_nil b spread pathA)
      (converter_all_le_high b spread pathA hb hs))
    (le_pmaxOf (converter_high_mem b spread pathA hb hs))

theorem converter_min (b : Bar) (spread : ℚ) (pathA : Bool)
    (hb : b.valid) (hs : 0 < spread) :
    pminOf (converterPrices b spread pathA) = b.low :=
  le_antisymm
    (pminOf_le_mem (converter_low_mem b spread pathA hb hs))
    (le_pminOf (converter_ne_nil b spread pathA)
      (converter_all_ge_low b spread pathA hb hs))

end EnvIntraday

namespace EnvIntraday

theorem numTrades_decomp_A (b : Bar) (s : ℚ) :
    numTrades b s true =
      numSteps b.open_ b.high (stepOf s b.high b.low) +
      numSteps b.high b.low (stepOf s b.high b.low) +
      numSteps b.low b.close (stepOf s b.high b.low) + 1 := by
  unfold numTrades converterPrices zigzagOpenHighLowClose
  simp [List.length_append, segTrades_length]
  omega

theorem numTrades_decomp_B (b : Bar) (s : ℚ) :
    numTrades b s false =
      numSteps b.open_ b.low (stepOf s b.high b.low) +
      numSteps b.low b.high (stepOf s b.high b.low) +
      numSteps b.high b.close (stepOf s b.high b.low) + 1 := by
  unfold numTrades converterPrices zigzagOpenLowHighClose
  simp [List.length_append, segTrades_length]
  omega

theorem stepOf_mono {s1 s2 high low : ℚ} (h12 : s1 ≤ s2)
    (h : 0 ≤ high + low) : stepOf s1 high low ≤ stepOf s2 high low := by
  unfold stepOf
  have := mul_le_mul_of_nonneg_right h12 h
  linarith

/-- C4: for every valid bar and positive spread, each of the three
monotonic segments of either zig-zag path is walked with price increment
`step = spread * (high + low) / 2`, from the segment's start toward its
end without overshooting; each segment's start point is included and its
end point excluded, the bar's close is always emitted as the final trade,
and the walk from 1 toward 5 with step 1 yields `[1, 2, 3, 4]`. -/
theorem C4_segment_walk (b : Bar) (spread : ℚ) (hb : b.valid)
    (hs : 0 < spread) :
    stepOf spread b.high b.low = spread * (b.high + b.low) / 2 ∧
    converterPrices b spread true =
      segTrades b.open_ b.high (stepOf spread b.high b.low) ++
      segTrades b.high b.low (stepOf spread b.high b.low) ++
      segTrades b.low b.close (stepOf spread b.high b.low) ++ [b.close] ∧
    converterPrices b spread false =
      segTrades b.open_ b.low (stepOf spread b.high b.low) ++
      segTrades b.low b.high (stepOf spread b.high b.low) ++
      segTrades b.high b.close (stepOf spread b.high b.low) ++ [b.close] ∧
    (∀ x y : ℚ, x ≠ y →
      (segTrades x y (stepOf spread b.high b.low)).head? = some x) ∧
    (∀ x y : ℚ, y ∉ segTrades x y (stepOf spread b.high b.low)) ∧
    (∀ x y p : ℚ, p ∈ segTrades x y (stepOf spread b.high b.low) →
      min x y ≤ p ∧ p ≤ max x y) ∧
    (∀ pathA : Bool,
      (converterPrices b spread pathA).getLast? = some b.close) ∧
    segTrades 1 5 1 = [1, 2, 3, 4] := by
  obtain ⟨hl0, hlo, hoh, hlc, hch, _, _, _⟩ := hb
  have hlh : b.low ≤ b.high := le_trans hlo hoh
  have hstep : 0 < stepOf spread b.high b.low := stepOf_pos hs hl0 hlh
  refine ⟨rfl, rfl, rfl, ?_, ?_, ?_, ?_, ?_⟩
  · intro x y hxy; exact segTrades_head hstep hxy
  · intro x y; exact segTrades_end_not_mem hstep
  · intro x y p hp
    exact ⟨(segTrades_mem_bounds hstep p hp).1,
      (segTrades_mem_bounds hstep p hp).2.1⟩
  · intro pathA; exact converter_last b spread pathA
  · with_unfolding_all decide

/-- Witness for C4 at the documented bar and spread 0.1: the hypotheses
hold and the README example walk is reproduced. -/
theorem C4_segment_walk_witness :
    fixedBar.valid ∧ 0 < (1/10 : ℚ) ∧ segTrades 1 5 1 = [1, 2, 3, 4] :=
  ⟨by with_unfolding_all decide, by with_unfolding_all decide,
    (C4_segment_walk fixedBar (1/10) (by with_unfolding_all decide) (by with_unfolding_all decide)).2.2.2.2.2.2.2⟩

/-- The documented spread-to-trade-count table fails under the spec's own
step formula `step = spread * (high + low) / 2`: for the fixed bar
`(open 100.2, high 100.4, low 100.1, close 100.3)` the step at spread 0.1
is `10.025`, larger than every segment length, so the Converter emits 4
trades, not the documented 11 (and 4, not 73, at spread 0.01). -/
theorem C5_counterexample :
    numTrades fixedBar (1/10) true = 4 ∧
    numTrades fixedBar (1/10) true ≠ 11 ∧
    numTrades fixedBar (1/100) true = 4 ∧
    numTrades fixedBar (1/100) true ≠ 73 :=
  ⟨by with_unfolding_all decide, by with_unfolding_all decide, by with_unfolding_all decide, by with_unfolding_all decide⟩

/-- C5 (amended): decreasing the spread never decreases the trade count
for a fixed valid bar, and the fixed documented bar yields 4 trades at
spread 0.4; however, under the spec's step formula it also yields 4
trades at spreads 0.1 and 0.01 (not the documented 11 and 73). -/
theorem C5_trade_count_monotonicity (b : Bar) (s1 s2 : ℚ) (pathA : Bool)
    (hb : b.valid) (h1 : 0 < s1) (h12 : s1 ≤ s2) :
    numTrades b s2 pathA ≤ numTrades b s1 pathA ∧
    numTrades fixedBar (4/10) true = 4 ∧
    numTrades fixedBar (1/10) true = 4 ∧
    numTrades fixedBar (1/100) true = 4 := by
  obtain ⟨hl0, hlo, hoh, hlc, hch, _, _, _⟩ := hb
  have hlh : b.low ≤ b.high := le_trans hlo hoh
  have hstep1 : 0 < stepOf s1 b.high b.low := stepOf_pos h1 hl0 hlh
  have hsum : 0 ≤ b.high + b.low := by linarith
  have hmono : stepOf s1 b.high b.low ≤ stepOf s2 b.high b.low :=
    stepOf_mono h12 hsum
  refine ⟨?_, by with_unfolding_all decide, by with_unfolding_all decide, by with_unfolding_all decide⟩
  cases pathA with
  | true =>
    rw [numTrades_decomp_A, numTrades_decomp_A]
    have m1 := numSteps_anti (a := b.open_) (b := b.high) hstep1 hmono
    have m2 := numSteps_anti (a := b.high) (b := b.low) hstep1 hmono
    have m3 := numSteps_anti (a := b.low) (b := b.close) hstep1 hmono
    omega
  | false =>
    rw [numTrades_decomp_B, numTrades_decomp_B]
    have m1 := numSteps_anti (a := b.open_) (b := b.low) hstep1 hmono
    have m2 := numSteps_anti (a := b.low) (b := b.high) hstep1 hmono
    have m3 := numSteps_anti (a := b.high) (b := b.close) hstep1 hmono
    omega

/-- Witness for the amended C5 at the documented bar: going from spread
0.1 down to 0.01 does not decrease the trade count. -/
theorem C5_trade_count_monotonicity_witness :
    fixedBar.valid ∧ 0 < (1/100 : ℚ) ∧ (1/100 : ℚ) ≤ 1/10 ∧
    numTrades fixedBar (1/10) true ≤ numTrades fixedBar (1/100) true :=
  ⟨by with_unfolding_all decide, by with_unfolding_all decide, by with_unfolding_all decide,
    (C5_trade_count_monotonicity fixedBar (1/100) (1/10) true
      (by with_unfolding_all decide) (by with_unfolding_all decide) (by with_unfolding_all decide)).1⟩

/-- C6: for every valid bar and positive spread, on either zig-zag path
the Converter output is non-empty, its first price is the bar's open, its
last price is the bar's close, its maximum price is the bar's high and
its minimum price is the bar's low. -/
theorem C6_endpoints_extrema (b : Bar) (spread : ℚ) (pathA : Bool)
    (hb : b.valid) (hs : 0 < spread) :
    converterPrices b spread pathA ≠ [] ∧
    (converterPrices b spread pathA).head? = some b.open_ ∧
    (converterPrices b spread pathA).getLast? = some b.close ∧
    pmaxOf (converterPrices b spread pathA) = b.high ∧
    pminOf (converterPrices b spread pathA) = b.low :=
  ⟨converter_ne_nil b spread pathA,
   converter_head b spread pathA hb hs,
   converter_last b spread pathA,
   converter_max b spread pathA hb hs,
   converter_min b spread pathA hb hs⟩

/-- Witness for C6 at the documented bar, spread 0.1, zig-zag 1. -/
theorem C6_endpoints_extrema_witness :
    fixedBar.valid ∧ 0 < (1/10 : ℚ) ∧
    pmaxOf (converterPrices fixedBar (1/10) true) = fixedBar.high :=
  ⟨by with_unfolding_all decide, by with_unfolding_all decide,
    (C6_endpoints_extrema fixedBar (1/10) true (by with_unfolding_all decide) (by with_unfolding_all decide)).2.2.2.1⟩

end EnvIntraday

namespace EnvIntraday

/-! ## Summation lemmas for the volume distribution -/

theorem sum_map_add (l : List ℚ) (f g : ℚ → ℚ) :
    (l.map (fun p => f p + g p)).sum = (l.map f).sum + (l.map g).sum := by
  induction l with
  | nil => simp
  | cons q r ih => simp only [List.map_cons, List.sum_cons, ih]; ring

theorem sum_map_const (l : List ℚ) (c : ℚ) :
    (l.map (fun _ => c)).sum = l.length * c := by
  induction l with
  | nil => simp
  | cons q r ih =>
    simp only [List.map_cons, List.sum_cons, ih, List.length_cons]
    push_cast
    ring

theorem sum_map_ite (l : List ℚ) (x c : ℚ) :
    (l.map (fun p => if p = x then c else 0)).sum = c * l.count x := by
  induction l with
  | nil => simp
  | cons q r ih =>
    simp only [List.map_cons, List.sum_cons, ih, List.count_cons]
    by_cases h : q = x
    · simp only [if_pos h, h, beq_self_eq_true, if_pos]
      push_cast
      ring
    · have hbeq : (q == x) = false := beq_eq_false_iff_ne.mpr h
      simp only [if_neg h, hbeq, if_neg Bool.false_ne_true]
      push_cast
      ring

theorem sum_map_mul_ite (l : List ℚ) (x c : ℚ) :
    (l.map (fun p => p * if p = x then c else 0)).sum = x * c * l.count x := by
  induction l with
  | nil => simp
  | cons q r ih =>
    simp only [List.map_cons, List.sum_cons, ih, List.count_cons]
    by_cases h : q = x
    · simp only [if_pos h, h, beq_self_eq_true, if_pos]
      push_cast
      ring
    · have hbeq : (q == x) = false := beq_eq_false_iff_ne.mpr h
      simp only [if_neg h, hbeq, if_neg Bool.false_ne_true]
      push_cast
      ring

theorem sum_map_mul_const (l : List ℚ) (c : ℚ) :
    (l.map (fun p => p * c)).sum = l.sum * c := by
  induction l with
  | nil => simp
  | cons q r ih => simp only [List.map_cons, List.sum_cons, ih]; ring

theorem zipWith_mul_map (ps : List ℚ) (f : ℚ → ℚ) :
    List.zipWith (fun p v => p * v) ps (ps.map f) =
      ps.map (fun p => p * f p) := by
  induction ps with
  | nil => simp
  | cons q r ih => simp [ih]

theorem refPrice_mem {ps : List ℚ} (V M : ℚ) (hne : ps ≠ []) :
    refPrice ps V M ∈ ps := by
  unfold refPrice
  split
  · exact pmaxOf_mem hne
  · exact pminOf_mem hne

theorem count_refPrice_pos {ps : List ℚ} (V M : ℚ) (hne : ps ≠ []) :
    0 < (ps.count (refPrice ps V M) : ℚ) := by
  have := List.count_pos_iff.mpr (refPrice_mem V M hne)
  exact_mod_cast this

/-- The distributed volumes sum to the bar's total volume exactly. -/
theorem distVolumes_sum (ps : List ℚ) (V M : ℚ) (hne : ps ≠ []) :
    (distVolumes ps V M).sum = V := by
  have hn : (0 : ℚ) < ps.length := by
    have : 0 < ps.length := List.length_pos.mpr hne
    exact_mod_cast this
  have hcnt := count_refPrice_pos V M hne
  unfold distVolumes
  rw [sum_map_add ps (fun _ => (1 - lamOf ps V M) * (V / ps.length))
    (fun p => if p = refPrice ps V M then
      lamOf ps V M * V / (ps.count (refPrice ps V M) : ℚ) else 0)]
  rw [sum_map_const, sum_map_ite]
  field_simp
  ring

/-- The distributed money (price times volume summed) equals the bar's
total money exactly, provided the reference price differs from the mean
price or the target VWAP already equals the mean. -/
theorem distVolumes_dot (ps : List ℚ) (V M : ℚ) (hne : ps ≠ [])
    (hV : V ≠ 0)
    (href : refPrice ps V M ≠ ps.sum / ps.length ∨
      M / V = ps.sum / ps.length) :
    (List.zipWith (fun p v => p * v) ps (distVolumes ps V M)).sum = M := by
  have hn : (0 : ℚ) < ps.length := by
    have : 0 < ps.length := List.length_pos.mpr hne
    exact_mod_cast this
  have hcnt := count_refPrice_pos V M hne
  unfold distVolumes
  rw [zipWith_mul_map]
  have hfun : (fun p => p * ((1 - lamOf ps V M) * (V / ps.length) +
      if p = refPrice ps V M then
        lamOf ps V M * V / (ps.count (refPrice ps V M) : ℚ) else 0)) =
      (fun p => p * ((1 - lamOf ps V M) * (V / ps.length)) +
        p * (if p = refPrice ps V M then
          lamOf ps V M * V / (ps.count (refPrice ps V M) : ℚ) else 0)) := by
    funext p
    ring
  rw [hfun, sum_map_add, sum_map_mul_const, sum_map_mul_ite]
  set S := ps.sum with hS
  set n : ℚ := (ps.length : ℚ) with hn2
  set ref := refPrice ps V M with href2
  set cnt : ℚ := (ps.count ref : ℚ) with hcnt2
  have hmain : S * ((1 - lamOf ps V M) * (V / n)) +
      ref * (lamOf ps V M * V / cnt) * cnt =
      V * (S / n + lamOf ps V M * (ref - S / n)) := by
    field_simp
    ring
  rw [hmain]
  rcases href with h | h
  · have hlam : lamOf ps V M * (ref - S / n) = M / V - S / n := by
      unfold lamOf
      rw [← href2, ← hS, ← hn2]
      exact div_mul_cancel₀ _ (sub_ne_zero.mpr h)
    rw [hlam]
    field_simp
    ring
  · have hlam : lamOf ps V M = 0 := by
      unfold lamOf
      rw [← hS, ← hn2, ← h, sub_self, zero_div]
    rw [hlam, zero_mul, add_zero, ← h]
    field_simp

end EnvIntraday

namespace EnvIntraday

/-- C1: for every valid bar carrying volume and money fields, every
positive spread and either zig-zag path, the volume-weighted average
price of the Converter's output trade sequence (sum of price times size
divided by sum of size) equals the bar's VWAP `money/volume`; in the
exact rational model the two are equal, hence within the claimed 1e-9
relative floating-point tolerance. -/
theorem C1_vwap_preservation (b : Bar) (spread : ℚ) (pathA : Bool)
    (hb : b.valid) (hs : 0 < spread) :
    |vwap (converterPrices b spread pathA)
        (distVolumes (converterPrices b spread pathA) b.volume b.money) -
      b.money / b.volume| ≤
    (1 / 1000000000) * |b.money / b.volume| := by
  obtain ⟨hl0, hlo, hoh, hlc, hch, hV, hMl, hMh⟩ := hb
  have hb2 : b.valid := ⟨hl0, hlo, hoh, hlc, hch, hV, hMl, hMh⟩
  set ps := converterPrices b spread pathA with hps
  have hne : ps ≠ [] := converter_ne_nil b spread pathA
  have hVne : b.volume ≠ 0 := ne_of_gt hV
  have hTle : b.money / b.volume ≤ b.high := (div_le_iff₀ hV).mpr hMh
  have hTge : b.low ≤ b.money / b.volume := (le_div_iff₀ hV).mpr hMl
  have href : refPrice ps b.volume b.money ≠ ps.sum / ps.length ∨
      b.money / b.volume = ps.sum / ps.length := by
    by_cases hTm : b.money / b.volume = ps.sum / ps.length
    · exact Or.inr hTm
    · left
      unfold refPrice
      by_cases hc : ps.sum / ps.length ≤ b.money / b.volume
      · rw [if_pos hc, converter_max b spread pathA hb2 hs]
        intro hcon
        exact hTm (le_antisymm (hcon ▸ hTle) hc)
      · rw [if_neg hc, converter_min b spread pathA hb2 hs]
        intro hcon
        exact hc (hcon ▸ hTge)
  have hsum := distVolumes_sum ps b.volume b.money hne
  have hdot := distVolumes_dot ps b.volume b.money hne hVne href
  have hvw : vwap ps (distVolumes ps b.volume b.money) =
      b.money / b.volume := by
    unfold vwap
    rw [hdot, hsum]
  rw [hvw, sub_self, abs_zero]
  positivity

/-- Witness for C1 at the documented bar, spread 0.1, zig-zag 1: the
hypotheses hold and the output VWAP matches `money/volume = 100.25`. -/
theorem C1_vwap_preservation_witness :
    fixedBar.valid ∧ 0 < (1/10 : ℚ) ∧
    |vwap (converterPrices fixedBar (1/10) true)
        (distVolumes (converterPrices fixedBar (1/10) true)
          fixedBar.volume fixedBar.money) -
      fixedBar.money / fixedBar.volume| ≤
    (1 / 1000000000) * |fixedBar.money / fixedBar.volume| :=
  ⟨by with_unfolding_all decide, by with_unfolding_all decide,
    C1_vwap_preservation fixedBar (1/10) true
      (by with_unfolding_all decide) (by with_unfolding_all decide)⟩

end EnvIntraday

namespace EnvIntraday

/-! ## Aggregator step lemmas and claims -/

theorem shouldSeal_duration_min {cfg : AggConfig} {dmin dmax : ℚ} {F : Frame}
    (hdur : cfg.duration = some (dmin, dmax)) (hmm : dmin ≤ dmax)
    (h : shouldSeal cfg F = true) : dmin ≤ F.time_end - F.time_start := by
  rw [shouldSeal, hdur] at h
  rcases Bool.or_eq_true_iff.mp h with h1 | h2
  · have := of_decide_eq_true h1
    linarith
  · have h2b : boundaryReached cfg F = true ∧
        decide (dmin ≤ F.time_end - F.time_start) = true := by
      simpa using h2
    exact of_decide_eq_true h2b.2

/-- Anatomy of an emitting aggregate step: the seal condition holds on
the emitted frame, the state is cleared, and the emitted frame is either
the fresh one-trade frame or the old frame with the trade folded in. -/
theorem aggregate_emit {cfg : AggConfig} {s : AggState} {t : Trade}
    {s2 : AggState} {F : Frame}
    (h : aggregate cfg s t = Except.ok (s2, some F)) :
    shouldSeal cfg F = true ∧ s2 = ⟨none⟩ ∧
    (F = initFrame t ∨ ∃ f, s.openFrame = some f ∧ F = foldTrade f t) := by
  obtain ⟨so⟩ := s
  cases so with
  | none =>
    simp only [aggregate] at h
    by_cases hseal : shouldSeal cfg (initFrame t)
    · rw [if_pos hseal] at h
      simp only [Except.ok.injEq, Prod.mk.injEq, Option.some.injEq] at h
      obtain ⟨h1, h2⟩ := h
      exact ⟨h2 ▸ hseal, h1.symm, Or.inl h2.symm⟩
    · rw [if_neg hseal] at h
      simp at h
  | some f =>
    simp only [aggregate] at h
    by_cases hlt : t.timestamp < f.time_start
    · rw [if_pos hlt] at h
      simp at h
    · rw [if_neg hlt] at h
      by_cases hseal : shouldSeal cfg (foldTrade f t)
      · rw [if_pos hseal] at h
        simp only [Except.ok.injEq, Prod.mk.injEq, Option.some.injEq] at h
        obtain ⟨h1, h2⟩ := h
        exact ⟨h2 ▸ hseal, h1.symm, Or.inr ⟨f, rfl, h2.symm⟩⟩
      · rw [if_neg hseal] at h
        simp at h

/-- C2: with method = volume, interval V and no duration constraint, the
frame is sealed exactly on the aggregate call in which folding a trade
makes the open frame's cumulative volume reach or exceed V; that
crossing trade is contained in the sealed frame (emitted in the same
call, never deferred), and a single trade whose size alone reaches V
produces exactly one frame containing just that trade. -/
theorem C2_volume_boundary (V : ℚ) (f : Frame) (t : Trade)
    (hord : f.time_start ≤ t.timestamp) :
    (aggregate ⟨Method.volume, V, none⟩ ⟨some f⟩ t =
        Except.ok (⟨none⟩, some (foldTrade f t)) ↔
      V ≤ (foldTrade f t).volume) ∧
    ((foldTrade f t).volume < V →
      aggregate ⟨Method.volume, V, none⟩ ⟨some f⟩ t =
        Except.ok (⟨some (foldTrade f t)⟩, none)) ∧
    (∀ u : Trade, V ≤ u.size →
      getFrames ⟨Method.volume, V, none⟩ [u] = Except.ok [initFrame u] ∧
      (initFrame u).ticks = 1) := by
  have hnlt : ¬ t.timestamp < f.time_start := not_lt.mpr hord
  refine ⟨?_, ?_, ?_⟩
  · constructor
    · intro h
      have := (aggregate_emit h).1
      rw [shouldSeal, boundaryReached] at this
      exact of_decide_eq_true this
    · intro hV
      simp [aggregate, hnlt, shouldSeal, boundaryReached, hV]
  · intro hV
    have hnV : ¬ V ≤ (foldTrade f t).volume := not_le.mpr hV
    simp [aggregate, hnlt, shouldSeal, boundaryReached, hnV]
  · intro u hu
    have hvol : (initFrame u).volume = u.size := rfl
    refine ⟨?_, rfl⟩
    simp [getFrames, runAgg, aggregate, finish, shouldSeal, boundaryReached,
      hvol, hu]

/-- Witness for C2: at volume interval 10, a frame of volume 4 plus a
size-7 trade seals exactly at that call, and a single size-12 trade
yields one single-trade frame. -/
theorem C2_volume_boundary_witness :
    (initFrame ⟨0, 1, 4⟩).time_start ≤ (⟨1, 2, 7⟩ : Trade).timestamp ∧
    (aggregate ⟨Method.volume, 10, none⟩ ⟨some (initFrame ⟨0, 1, 4⟩)⟩ ⟨1, 2, 7⟩ =
        Except.ok (⟨none⟩, some (foldTrade (initFrame ⟨0, 1, 4⟩) ⟨1, 2, 7⟩)) ↔
      10 ≤ (foldTrade (initFrame ⟨0, 1, 4⟩) ⟨1, 2, 7⟩).volume) ∧
    (10 : ℚ) ≤ (⟨3, 5, 12⟩ : Trade).size ∧
    getFrames ⟨Method.volume, 10, none⟩ [⟨3, 5, 12⟩] =
      Except.ok [initFrame ⟨3, 5, 12⟩] :=
  ⟨by with_unfolding_all decide,
   (C2_volume_boundary 10 (initFrame ⟨0, 1, 4⟩) ⟨1, 2, 7⟩
     (by with_unfolding_all decide)).1,
   by with_unfolding_all decide,
   ((C2_volume_boundary 10 (initFrame ⟨0, 1, 4⟩) ⟨1, 2, 7⟩
     (by with_unfolding_all decide)).2.2 ⟨3, 5, 12⟩
     (by with_unfolding_all decide)).1⟩

/-- The claim of C3 fails on the model: at volume interval 10, a frame
holding one trade of size 4 receives a trade of size 7 that crosses the
boundary; the claim predicts the frame is sealed WITHOUT that trade (a
one-tick frame) and the crossing trade opens the next frame, but the
aggregator folds the trade first and seals the two-tick frame that
contains it, leaving no open frame. -/
theorem C3_counterexample :
    aggregate ⟨Method.volume, 10, none⟩ ⟨some (initFrame ⟨0, 1, 4⟩)⟩ ⟨1, 2, 7⟩ ≠
      Except.ok (⟨some (initFrame ⟨1, 2, 7⟩)⟩, some (initFrame ⟨0, 1, 4⟩)) ∧
    aggregate ⟨Method.volume, 10, none⟩ ⟨some (initFrame ⟨0, 1, 4⟩)⟩ ⟨1, 2, 7⟩ =
      Except.ok (⟨none⟩, some (foldTrade (initFrame ⟨0, 1, 4⟩) ⟨1, 2, 7⟩)) ∧
    (foldTrade (initFrame ⟨0, 1, 4⟩) ⟨1, 2, 7⟩).ticks ≠ 1 ∧
    (foldTrade (initFrame ⟨0, 1, 4⟩) ⟨1, 2, 7⟩).volume = 11 := by
  have heq : aggregate ⟨Method.volume, 10, none⟩
      ⟨some (initFrame ⟨0, 1, 4⟩)⟩ ⟨1, 2, 7⟩ =
      Except.ok (⟨none⟩, some (foldTrade (initFrame ⟨0, 1, 4⟩) ⟨1, 2, 7⟩)) := by
    with_unfolding_all rfl
  refine ⟨?_, heq, ?_, ?_⟩
  · intro hcon
    rw [heq] at hcon
    simp at hcon
  · with_unfolding_all decide
  · with_unfolding_all decide

/-- C3 (amended): for every open frame and every in-order incoming
trade, the aggregator folds the trade first and tests the seal condition
on the folded frame afterwards: when it holds, the sealed frame contains
the crossing trade (its tick count grows and its time_end is the
crossing trade's timestamp) and the next frame opens only at the next
arriving trade; otherwise the trade is absorbed and the frame stays
open. -/
theorem C3_fold_then_check (cfg : AggConfig) (f : Frame) (t : Trade)
    (hord : f.time_start ≤ t.timestamp) :
    aggregate cfg ⟨some f⟩ t =
      (if shouldSeal cfg (foldTrade f t) then
        Except.ok (⟨none⟩, some (foldTrade f t))
      else Except.ok (⟨some (foldTrade f t)⟩, none)) ∧
    (foldTrade f t).time_end = t.timestamp ∧
    (foldTrade f t).ticks = f.ticks + 1 := by
  refine ⟨?_, rfl, rfl⟩
  simp [aggregate, not_lt.mpr hord]

/-- Witness for the amended C3 at the counterexample input. -/
theorem C3_fold_then_check_witness :
    (initFrame ⟨0, 1, 4⟩).time_start ≤ (⟨1, 2, 7⟩ : Trade).timestamp ∧
    (foldTrade (initFrame ⟨0, 1, 4⟩) ⟨1, 2, 7⟩).ticks =
      (initFrame ⟨0, 1, 4⟩).ticks + 1 :=
  ⟨by with_unfolding_all decide,
   (C3_fold_then_check ⟨Method.volume, 10, none⟩ (initFrame ⟨0, 1, 4⟩) ⟨1, 2, 7⟩
     (by with_unfolding_all decide)).2.2⟩

/-- C8: with a duration clamp `(dmin, dmax)` configured, a frame is
never sealed by `aggregate` before `dmin` wall-clock time has elapsed
since its `time_start` even if the primary boundary is reached (the
frame keeps absorbing trades), and it always seals once a trade arrives
with timestamp at least `dmax` past the frame's `time_start`, regardless
of the primary boundary. -/
theorem C8_duration_clamp (cfg : AggConfig) (dmin dmax : ℚ)
    (hdur : cfg.duration = some (dmin, dmax)) (hmm : dmin ≤ dmax) :
    (∀ s t s2 F, aggregate cfg s t = Except.ok (s2, some F) →
      dmin ≤ F.time_end - F.time_start) ∧
    (∀ (f : Frame) (t : Trade), f.time_start ≤ t.timestamp →
      dmax ≤ t.timestamp - f.time_start →
      aggregate cfg ⟨some f⟩ t = Except.ok (⟨none⟩, some (foldTrade f t))) ∧
    (∀ (f : Frame) (t : Trade), f.time_start ≤ t.timestamp →
      t.timestamp - f.time_start < dmin →
      t.timestamp - f.time_start < dmax →
      aggregate cfg ⟨some f⟩ t =
        Except.ok (⟨some (foldTrade f t)⟩, none)) := by
  refine ⟨?_, ?_, ?_⟩
  · intro s t s2 F h
    exact shouldSeal_duration_min hdur hmm (aggregate_emit h).1
  · intro f t hord helapsed
    have hseal : shouldSeal cfg (foldTrade f t) = true := by
      rw [shouldSeal, hdur]
      have he : (foldTrade f t).time_end - (foldTrade f t).time_start =
          t.timestamp - f.time_start := rfl
      rw [Bool.or_eq_true_iff]
      left
      rw [he]
      exact decide_eq_true helapsed
    simp [aggregate, not_lt.mpr hord, hseal]
  · intro f t hord h1 h2
    have hseal : shouldSeal cfg (foldTrade f t) = false := by
      rw [shouldSeal, hdur]
      have he : (foldTrade f t).time_end - (foldTrade f t).time_start =
          t.timestamp - f.time_start := rfl
      rw [Bool.or_eq_false_iff]
      constructor
      · rw [he]; exact decide_eq_false (not_le.mpr h2)
      · rw [Bool.and_eq_false_iff]
        right
        rw [he]; exact decide_eq_false (not_le.mpr h1)
    simp [aggregate, not_lt.mpr hord, hseal]

/-- Witness for C8 at tick interval 3 with duration (5, 60): a frame
that reached 3 ticks after 2 seconds is not sealed, and a trade 60
seconds past the start seals the frame regardless of ticks. -/
theorem C8_duration_clamp_witness :
    ((⟨Method.tick, 3, some (5, 60)⟩ : AggConfig).duration = some (5, 60)) ∧
    (5 : ℚ) ≤ 60 ∧
    (foldTrade (foldTrade (initFrame ⟨0, 1, 1⟩) ⟨1, 1, 1⟩) ⟨2, 1, 1⟩).ticks = 3 ∧
    aggregate ⟨Method.tick, 3, some (5, 60)⟩
      ⟨some (foldTrade (initFrame ⟨0, 1, 1⟩) ⟨1, 1, 1⟩)⟩ ⟨2, 1, 1⟩ =
      Except.ok (⟨some (foldTrade (foldTrade (initFrame ⟨0, 1, 1⟩) ⟨1, 1, 1⟩)
        ⟨2, 1, 1⟩)⟩, none) ∧
    aggregate ⟨Method.tick, 3, some (5, 60)⟩
      ⟨some (initFrame ⟨0, 1, 1⟩)⟩ ⟨60, 1, 1⟩ =
      Except.ok (⟨none⟩, some (foldTrade (initFrame ⟨0, 1, 1⟩) ⟨60, 1, 1⟩)) :=
  ⟨rfl, by with_unfolding_all decide, by with_unfolding_all decide,
   (C8_duration_clamp ⟨Method.tick, 3, some (5, 60)⟩ 5 60 rfl
       (by with_unfolding_all decide)).2.2
     (foldTrade (initFrame ⟨0, 1, 1⟩) ⟨1, 1, 1⟩) ⟨2, 1, 1⟩
     (by with_unfolding_all decide) (by with_unfolding_all decide)
     (by with_unfolding_all decide),
   (C8_duration_clamp ⟨Method.tick, 3, some (5, 60)⟩ 5 60 rfl
       (by with_unfolding_all decide)).2.1
     (initFrame ⟨0, 1, 1⟩) ⟨60, 1, 1⟩
     (by with_unfolding_all decide) (by with_unfolding_all decide)⟩

end EnvIntraday

namespace EnvIntraday

/-- After a successful aggregate step, any open frame's start is not
later than the processed trade's timestamp. -/
theorem aggregate_open_start {cfg : AggConfig} {s : AggState} {t : Trade}
    {s1 : AggState} {out : Option Frame}
    (hle : ∀ f, s.openFrame = some f → f.time_start ≤ t.timestamp)
    (h : aggregate cfg s t = Except.ok (s1, out)) :
    ∀ f2, s1.openFrame = some f2 → f2.time_start ≤ t.timestamp := by
  obtain ⟨so⟩ := s
  cases so with
  | none =>
    simp only [aggregate] at h
    by_cases hseal : shouldSeal cfg (initFrame t)
    · rw [if_pos hseal] at h
      simp only [Except.ok.injEq, Prod.mk.injEq] at h
      intro f2 hf2
      rw [← h.1] at hf2
      simp at hf2
    · rw [if_neg hseal] at h
      simp only [Except.ok.injEq, Prod.mk.injEq] at h
      intro f2 hf2
      rw [← h.1] at hf2
      simp only [Option.some.injEq] at hf2
      rw [← hf2]
      exact le_refl _
  | some f =>
    have hf : f.time_start ≤ t.timestamp := hle f rfl
    simp only [aggregate] at h
    rw [if_neg (not_lt.mpr hf)] at h
    by_cases hseal : shouldSeal cfg (foldTrade f t)
    · rw [if_pos hseal] at h
      simp only [Except.ok.injEq, Prod.mk.injEq] at h
      intro f2 hf2
      rw [← h.1] at hf2
      simp at hf2
    · rw [if_neg hseal] at h
      simp only [Except.ok.injEq, Prod.mk.injEq] at h
      intro f2 hf2
      rw [← h.1] at hf2
      simp only [Option.some.injEq] at hf2
      rw [← hf2]
      exact hf

/-- A sorted trade stream is always aggregated without error. -/
theorem runAgg_ok_of_sorted (cfg : AggConfig) :
    ∀ (ts : List Trade) (s : AggState), SortedT ts →
    (∀ f, s.openFrame = some f →
      ∀ t0 ∈ ts.head?, f.time_start ≤ t0.timestamp) →
    ∃ r, runAgg cfg s ts = Except.ok r := by
  intro ts
  induction ts with
  | nil => intro s _ _; exact ⟨(s, []), rfl⟩
  | cons t ts ih =>
    intro s hsort hinv
    have hle : ∀ f, s.openFrame = some f → f.time_start ≤ t.timestamp := by
      intro f hf
      exact hinv f hf t (by simp)
    have hagg : ∃ s1 out, aggregate cfg s t = Except.ok (s1, out) := by
      obtain ⟨so⟩ := s
      cases so with
      | none =>
        simp only [aggregate]
        by_cases hseal : shouldSeal cfg (initFrame t)
        · rw [if_pos hseal]; exact ⟨_, _, rfl⟩
        · rw [if_neg hseal]; exact ⟨_, _, rfl⟩
      | some f =>
        have hf : f.time_start ≤ t.timestamp := hle f rfl
        simp only [aggregate]
        rw [if_neg (not_lt.mpr hf)]
        by_cases hseal : shouldSeal cfg (foldTrade f t)
        · rw [if_pos hseal]; exact ⟨_, _, rfl⟩
        · rw [if_neg hseal]; exact ⟨_, _, rfl⟩
    obtain ⟨s1, out, hagg⟩ := hagg
    have hsort2 : SortedT ts := List.Chain'.tail hsort
    have hinv2 : ∀ f, s1.openFrame = some f →
        ∀ t0 ∈ ts.head?, f.time_start ≤ t0.timestamp := by
      intro f2 hf2 t0 ht0
      have h1 : f2.time_start ≤ t.timestamp :=
        aggregate_open_start hle hagg f2 hf2
      have h2 : t.timestamp ≤ t0.timestamp := by
        cases ts with
        | nil => simp at ht0
        | cons u us =>
          simp only [List.head?_cons, Option.mem_def, Option.some.injEq] at ht0
          rw [← ht0]
          exact (List.chain'_cons.mp hsort).1
      linarith
    obtain ⟨⟨s2, fs⟩, hrun⟩ := ih s1 hsort2 hinv2
    refine ⟨(s2, out.toList ++ fs), ?_⟩
    simp [runAgg, hagg, hrun]

/-- C9: the aggregator accepts trades only in non-decreasing timestamp
order: a trade older than the open frame's start raises the ordering
error immediately, while a stream in non-decreasing timestamp order is
always aggregated without error. -/
theorem C9_ordering (cfg : AggConfig) :
    (∀ (f : Frame) (t : Trade), t.timestamp < f.time_start →
      aggregate cfg ⟨some f⟩ t = Except.error orderError) ∧
    (∀ trades : List Trade, SortedT trades →
      ∃ fs, getFrames cfg trades = Except.ok fs) := by
  constructor
  · intro f t hlt
    simp [aggregate, hlt]
  · intro trades hsorted
    have hinv : ∀ f, (⟨none⟩ : AggState).openFrame = some f →
        ∀ t0 ∈ trades.head?, f.time_start ≤ t0.timestamp := by
      intro f hf
      simp at hf
    obtain ⟨⟨s2, fs⟩, hrun⟩ :=
      runAgg_ok_of_sorted cfg trades ⟨none⟩ hsorted hinv
    refine ⟨fs ++ (finish s2).2.toList, ?_⟩
    rw [getFrames, hrun]

/-- Witness for C9: an out-of-order trade errors; a sorted two-trade
stream aggregates without error. -/
theorem C9_ordering_witness :
    (⟨0, 1, 1⟩ : Trade).timestamp < (initFrame ⟨5, 1, 1⟩).time_start ∧
    aggregate ⟨Method.tick, 2, none⟩ ⟨some (initFrame ⟨5, 1, 1⟩)⟩ ⟨0, 1, 1⟩ =
      Except.error orderError ∧
    SortedT [⟨0, 1, 1⟩, ⟨5, 1, 1⟩] ∧
    (∃ fs, getFrames ⟨Method.tick, 2, none⟩ [⟨0, 1, 1⟩, ⟨5, 1, 1⟩] =
      Except.ok fs) :=
  ⟨by with_unfolding_all decide,
   (C9_ordering ⟨Method.tick, 2, none⟩).1 (initFrame ⟨5, 1, 1⟩) ⟨0, 1, 1⟩
     (by with_unfolding_all decide),
   by norm_num [SortedT, List.chain'_cons],
   (C9_ordering ⟨Method.tick, 2, none⟩).2 [⟨0, 1, 1⟩, ⟨5, 1, 1⟩]
     (by norm_num [SortedT, List.chain'_cons])⟩

end EnvIntraday

namespace EnvIntraday

/-! ## Frame statistics under folding -/

theorem foldl_time_start : ∀ (ts : List Trade) (f : Frame),
    (ts.foldl foldTrade f).time_start = f.time_start := by
  intro ts
  induction ts with
  | nil => intro f; rfl
  | cons t ts ih => intro f; rw [List.foldl_cons, ih]; rfl

theorem foldl_open_ : ∀ (ts : List Trade) (f : Frame),
    (ts.foldl foldTrade f).open_ = f.open_ := by
  intro ts
  induction ts with
  | nil => intro f; rfl
  | cons t ts ih => intro f; rw [List.foldl_cons, ih]; rfl

theorem foldl_ticks : ∀ (ts : List Trade) (f : Frame),
    (ts.foldl foldTrade f).ticks = f.ticks + ts.length := by
  intro ts
  induction ts with
  | nil => intro f; simp
  | cons t ts ih =>
    intro f
    rw [List.foldl_cons, ih]
    have : (foldTrade f t).ticks = f.ticks + 1 := rfl
    rw [this, List.length_cons]
    omega

theorem foldl_volume : ∀ (ts : List Trade) (f : Frame),
    (ts.foldl foldTrade f).volume = f.volume + (ts.map Trade.size).sum := by
  intro ts
  induction ts with
  | nil => intro f; simp
  | cons t ts ih =>
    intro f
    rw [List.foldl_cons, ih]
    have : (foldTrade f t).volume = f.volume + t.size := rfl
    rw [this, List.map_cons, List.sum_cons]
    ring

theorem foldl_money : ∀ (ts : List Trade) (f : Frame),
    (ts.foldl foldTrade f).money =
      f.money + (ts.map (fun u => u.price * u.size)).sum := by
  intro ts
  induction ts with
  | nil => intro f; simp
  | cons t ts ih =>
    intro f
    rw [List.foldl_cons, ih]
    have : (foldTrade f t).money = f.money + t.price * t.size := rfl
    rw [this, List.map_cons, List.sum_cons]
    ring

theorem foldl_close : ∀ (ts : List Trade) (f : Frame),
    (ts.foldl foldTrade f).close =
      ((ts.getLast?).map Trade.price).getD f.close := by
  intro ts
  induction ts with
  | nil => intro f; rfl
  | cons t ts ih =>
    intro f
    rw [List.foldl_cons, ih]
    cases ts with
    | nil => rfl
    | cons u us =>
      rw [List.getLast?_cons_cons]
      obtain ⟨a, ha⟩ := Option.isSome_iff_exists.mp
        (List.getLast?_isSome.mpr (List.cons_ne_nil u us))
      rw [ha]
      rfl

theorem foldl_time_end : ∀ (ts : List Trade) (f : Frame),
    (ts.foldl foldTrade f).time_end =
      ((ts.getLast?).map Trade.timestamp).getD f.time_end := by
  intro ts
  induction ts with
  | nil => intro f; rfl
  | cons t ts ih =>
    intro f
    rw [List.foldl_cons, ih]
    cases ts with
    | nil => rfl
    | cons u us =>
      rw [List.getLast?_cons_cons]
      obtain ⟨a, ha⟩ := Option.isSome_iff_exists.mp
        (List.getLast?_isSome.mpr (List.cons_ne_nil u us))
      rw [ha]
      rfl

theorem foldl_high_ge : ∀ (ts : List Trade) (f : Frame),
    f.high ≤ (ts.foldl foldTrade f).high := by
  intro ts
  induction ts with
  | nil => intro f; exact le_refl _
  | cons t ts ih =>
    intro f
    rw [List.foldl_cons]
    exact le_trans (le_max_left f.high t.price) (ih (foldTrade f t))

theorem foldl_high_ub : ∀ (ts : List Trade) (f : Frame),
    ∀ u ∈ ts, u.price ≤ (ts.foldl foldTrade f).high := by
  intro ts
  induction ts with
  | nil => intro f u hu; cases hu
  | cons t ts ih =>
    intro f u hu
    rw [List.foldl_cons]
    rcases List.mem_cons.mp hu with rfl | hu2
    · exact le_trans (le_max_right f.high u.price) (foldl_high_ge ts _)
    · exact ih (foldTrade f t) u hu2

theorem foldl_high_cases : ∀ (ts : List Trade) (f : Frame),
    (ts.foldl foldTrade f).high = f.high ∨
      (ts.foldl foldTrade f).high ∈ ts.map Trade.price := by
  intro ts
  induction ts with
  | nil => intro f; exact Or.inl rfl
  | cons t ts ih =>
    intro f
    rw [List.foldl_cons]
    rcases ih (foldTrade f t) with h | h
    · rw [h]
      have : (foldTrade f t).high = max f.high t.price := rfl
      rw [this]
      rcases le_total f.high t.price with hc | hc
      · right; rw [max_eq_right hc]; exact List.mem_cons_self _ _
      · left; rw [max_eq_left hc]
    · right; exact List.mem_cons_of_mem _ h

theorem foldl_low_le : ∀ (ts : List Trade) (f : Frame),
    (ts.foldl foldTrade f).low ≤ f.low := by
  intro ts
  induction ts with
  | nil => intro f; exact le_refl _
  | cons t ts ih =>
    intro f
    rw [List.foldl_cons]
    exact le_trans (ih (foldTrade f t)) (min_le_left f.low t.price)

theorem foldl_low_lb : ∀ (ts : List Trade) (f : Frame),
    ∀ u ∈ ts, (ts.foldl foldTrade f).low ≤ u.price := by
  intro ts
  induction ts with
  | nil => intro f u hu; cases hu
  | cons t ts ih =>
    intro f u hu
    rw [List.foldl_cons]
    rcases List.mem_cons.mp hu with rfl | hu2
    · exact le_trans (foldl_low_le ts _) (min_le_right f.low u.price)
    · exact ih (foldTrade f t) u hu2

theorem foldl_low_cases : ∀ (ts : List Trade) (f : Frame),
    (ts.foldl foldTrade f).low = f.low ∨
      (ts.foldl foldTrade f).low ∈ ts.map Trade.price := by
  intro ts
  induction ts with
  | nil => intro f; exact Or.inl rfl
  | cons t ts ih =>
    intro f
    rw [List.foldl_cons]
    rcases ih (foldTrade f t) with h | h
    · rw [h]
      have : (foldTrade f t).low = min f.low t.price := rfl
      rw [this]
      rcases le_total f.low t.price with hc | hc
      · left; rw [min_eq_left hc]
      · right; rw [min_eq_right hc]; exact List.mem_cons_self _ _
    · right; exact List.mem_cons_of_mem _ h

/-- The frame computed from a nonempty window satisfies the claimed
invariant relating its statistics to the window's trades. -/
theorem frameOfW_stats {w : List Trade} (hw : w ≠ []) : FrameStats w := by
  cases w with
  | nil => exact absurd rfl hw
  | cons t ts =>
    have hfw : frameOfW (t :: ts) = ts.foldl foldTrade (initFrame t) := rfl
    refine ⟨List.cons_ne_nil t ts, ?_, ?_, ?_, ?_, ?_, ?_, ?_⟩
    · intro t0 ht0
      simp only [List.head?_cons, Option.mem_def, Option.some.injEq] at ht0
      subst ht0
      rw [hfw]
      constructor
      · rw [foldl_open_]; rfl
      · rw [foldl_time_start]; rfl
    · intro t1 ht1
      rw [hfw]
      cases hts : ts with
      | nil =>
        simp only [hts, List.getLast?_singleton, Option.mem_def,
          Option.some.injEq] at ht1
        subst ht1
        exact ⟨rfl, rfl⟩
      | cons u us =>
        rw [hts, List.getLast?_cons_cons] at ht1
        have hsome : (u :: us).getLast? = some t1 := ht1
        constructor
        · rw [foldl_close, hsome]; rfl
        · rw [foldl_time_end, hsome]; rfl
    · rw [hfw, foldl_volume]
      have : (initFrame t).volume = t.size := rfl
      rw [this, List.map_cons, List.sum_cons]
    · rw [hfw, foldl_money]
      have : (initFrame t).money = t.price * t.size := rfl
      rw [this, List.map_cons, List.sum_cons]
    · rw [hfw, foldl_ticks]
      have : (initFrame t).ticks = 1 := rfl
      rw [this, List.length_cons]
      omega
    · constructor
      · rw [hfw]
        rcases foldl_high_cases ts (initFrame t) with h | h
        · rw [h]
          have : (initFrame t).high = t.price := rfl
          rw [this, List.map_cons]
          exact List.mem_cons_self _ _
        · rw [List.map_cons]
          exact List.mem_cons_of_mem _ h
      · intro u hu
        rw [hfw]
        rcases List.mem_cons.mp hu with rfl | hu2
        · have : (initFrame u).high = u.price := rfl
          exact this ▸ foldl_high_ge ts (initFrame u)
        · exact foldl_high_ub ts (initFrame t) u hu2
    · constructor
      · rw [hfw]
        rcases foldl_low_cases ts (initFrame t) with h | h
        · rw [h]
          have : (initFrame t).low = t.price := rfl
          rw [this, List.map_cons]
          exact List.mem_cons_self _ _
        · rw [List.map_cons]
          exact List.mem_cons_of_mem _ h
      · intro u hu
        rw [hfw]
        rcases List.mem_cons.mp hu with rfl | hu2
        · have : (initFrame u).low = u.price := rfl
          exact this ▸ foldl_low_le ts (initFrame u)
        · exact foldl_low_lb ts (initFrame t) u hu2

end EnvIntraday

namespace EnvIntraday

/-! ## Window-level simulation of the aggregator -/

theorem frameOfW_append {w : List Trade} (t : Trade) (hw : w ≠ []) :
    frameOfW (w ++ [t]) = foldTrade (frameOfW w) t := by
  cases w with
  | nil => exact absurd rfl hw
  | cons t0 ts =>
    show frameOfW (t0 :: (ts ++ [t])) = _
    rw [frameOfW, frameOfW, List.foldl_append]
    rfl

theorem frameOfW_time_start (t0 : Trade) (w : List Trade) :
    (frameOfW (t0 :: w)).time_start = t0.timestamp := by
  rw [frameOfW, foldl_time_start]
  rfl

theorem toList_map_frameOfW (out : Option (List Trade)) :
    (out.map frameOfW).toList = out.toList.map frameOfW := by
  cases out <;> rfl

/-- One aggregate step is simulated by one window step. -/
theorem aggregate_toState (cfg : AggConfig) (w : List Trade) (t : Trade) :
    aggregate cfg (toState w) t =
      (waggregate cfg w t).map
        (fun r => (toState r.1, r.2.map frameOfW)) := by
  cases w with
  | nil =>
    have hfw : frameOfW [t] = initFrame t := rfl
    simp only [toState, aggregate, waggregate, hfw]
    by_cases hseal : shouldSeal cfg (initFrame t)
    · rw [if_pos hseal, if_pos hseal]
      rfl
    · rw [if_neg hseal, if_neg hseal]
      rfl
  | cons t0 w0 =>
    simp only [toState, aggregate, waggregate]
    by_cases hlt : t.timestamp < (frameOfW (t0 :: w0)).time_start
    · rw [if_pos hlt, if_pos hlt]
      rfl
    · rw [if_neg hlt, if_neg hlt]
      have hfold : frameOfW ((t0 :: w0) ++ [t]) =
          foldTrade (frameOfW (t0 :: w0)) t :=
        frameOfW_append t (List.cons_ne_nil t0 w0)
      by_cases hseal : shouldSeal cfg (foldTrade (frameOfW (t0 :: w0)) t)
      · rw [if_pos hseal,
          if_pos (show shouldSeal cfg (frameOfW ((t0 :: w0) ++ [t])) = true by
            rw [hfold]; exact hseal)]
        simp [Except.map, toState, hfold]
        exact hfold.symm
      · rw [if_neg hseal,
          if_neg (show ¬ shouldSeal cfg (frameOfW ((t0 :: w0) ++ [t])) = true by
            rw [hfold]; exact hseal)]
        simp [Except.map, toState, hfold]
        exact hfold.symm

/-- A full run of the aggregator is simulated by a full window run. -/
theorem runAgg_toState (cfg : AggConfig) :
    ∀ (ts : List Trade) (w : List Trade),
    runAgg cfg (toState w) ts =
      (runWin cfg w ts).map
        (fun r => (toState r.1, (r.2).map frameOfW)) := by
  intro ts
  induction ts with
  | nil =>
    intro w
    rfl
  | cons t ts ih =>
    intro w
    rw [runAgg, runWin, aggregate_toState]
    cases hwa : waggregate cfg w t with
    | error e => rfl
    | ok r =>
      obtain ⟨w1, out⟩ := r
      simp only [Except.map]
      rw [ih w1]
      cases hrw : runWin cfg w1 ts with
      | error e => rfl
      | ok r2 =>
        obtain ⟨w2, ws⟩ := r2
        simp only [Except.map]
        rw [toList_map_frameOfW, ← List.map_append]

/-- The frames of a trade stream are exactly the frames of its window
partition. -/
theorem getFrames_eq_windows (cfg : AggConfig) (trades : List Trade) :
    getFrames cfg trades =
      (getWindows cfg trades).map (fun ws => ws.map frameOfW) := by
  unfold getFrames getWindows
  have h := runAgg_toState cfg trades []
  have h0 : toState [] = (⟨none⟩ : AggState) := rfl
  rw [h0] at h
  rw [h]
  cases hrw : runWin cfg [] trades with
  | error e => rfl
  | ok r =>
    obtain ⟨w, ws⟩ := r
    simp only [Except.map, Except.ok.injEq]
    rw [List.map_append]
    congr 1
    cases w <;> rfl

/-- Shape of a successful window step: the incoming trade is appended to
the open window, which is either kept open or emitted whole. -/
theorem waggregate_shape {cfg : AggConfig} {w : List Trade} {t : Trade}
    {w1 : List Trade} {out : Option (List Trade)}
    (hwa : waggregate cfg w t = Except.ok (w1, out)) :
    (out = none ∧ w1 = w ++ [t]) ∨ (out = some (w ++ [t]) ∧ w1 = []) := by
  cases w with
  | nil =>
    simp only [waggregate] at hwa
    by_cases hseal : shouldSeal cfg (frameOfW [t])
    · rw [if_pos hseal] at hwa
      simp only [Except.ok.injEq, Prod.mk.injEq] at hwa
      right
      exact ⟨hwa.2.symm, hwa.1.symm⟩
    · rw [if_neg hseal] at hwa
      simp only [Except.ok.injEq, Prod.mk.injEq] at hwa
      left
      exact ⟨hwa.2.symm, hwa.1.symm⟩
  | cons t0 w0 =>
    simp only [waggregate] at hwa
    by_cases hlt : t.timestamp < (frameOfW (t0 :: w0)).time_start
    · rw [if_pos hlt] at hwa; simp at hwa
    · rw [if_neg hlt] at hwa
      by_cases hseal : shouldSeal cfg (frameOfW ((t0 :: w0) ++ [t]))
      · rw [if_pos hseal] at hwa
        simp only [Except.ok.injEq, Prod.mk.injEq] at hwa
        right
        exact ⟨hwa.2.symm, hwa.1.symm⟩
      · rw [if_neg hseal] at hwa
        simp only [Except.ok.injEq, Prod.mk.injEq] at hwa
        left
        exact ⟨hwa.2.symm, hwa.1.symm⟩

/-- The emitted windows concatenated with the leftover open window give
back the processed trades, in order. -/
theorem runWin_flatten (cfg : AggConfig) :
    ∀ (ts w : List Trade) (w2 : List Trade) (ws : List (List Trade)),
    runWin cfg w ts = Except.ok (w2, ws) →
    ws.flatten ++ w2 = w ++ ts := by
  intro ts
  induction ts with
  | nil =>
    intro w w2 ws h
    simp only [runWin, Except.ok.injEq, Prod.mk.injEq] at h
    rw [← h.1, ← h.2]
    simp
  | cons t ts ih =>
    intro w w2 ws h
    rw [runWin] at h
    cases hwa : waggregate cfg w t with
    | error e => simp [hwa] at h
    | ok r =>
      obtain ⟨w1, out⟩ := r
      simp only [hwa] at h
      cases hrw : runWin cfg w1 ts with
      | error e => simp [hrw] at h
      | ok r2 =>
        obtain ⟨w2b, wsb⟩ := r2
        simp only [hrw, Except.ok.injEq, Prod.mk.injEq] at h
        obtain ⟨h1, h2⟩ := h
        subst h1
        subst h2
        have hih := ih w1 w2b wsb hrw
        rcases waggregate_shape hwa with ⟨ho, hw1⟩ | ⟨ho, hw1⟩
        · subst ho
          subst hw1
          simp only [Option.toList_none, List.nil_append]
          rw [hih]
          simp
        · subst ho
          subst hw1
          simp only [List.nil_append] at hih
          simp only [Option.toList_some, List.singleton_append,
            List.flatten_cons, List.append_assoc, List.cons_append]
          simp [hih]
    
/-- Every emitted window is nonempty. -/
theorem runWin_windows_ne_nil (cfg : AggConfig) :
    ∀ (ts w : List Trade) (w2 : List Trade) (ws : List (List Trade)),
    runWin cfg w ts = Except.ok (w2, ws) → ∀ x ∈ ws, x ≠ [] := by
  intro ts
  induction ts with
  | nil =>
    intro w w2 ws h x hx
    simp only [runWin, Except.ok.injEq, Prod.mk.injEq] at h
    rw [← h.2] at hx
    cases hx
  | cons t ts ih =>
    intro w w2 ws h x hx
    rw [runWin] at h
    cases hwa : waggregate cfg w t with
    | error e => simp [hwa] at h
    | ok r =>
      obtain ⟨w1, out⟩ := r
      simp only [hwa] at h
      cases hrw : runWin cfg w1 ts with
      | error e => simp [hrw] at h
      | ok r2 =>
        obtain ⟨w2b, wsb⟩ := r2
        simp only [hrw, Except.ok.injEq, Prod.mk.injEq] at h
        obtain ⟨h1, h2⟩ := h
        subst h1
        subst h2
        rcases List.mem_append.mp hx with hx1 | hx2
        · rcases waggregate_shape hwa with ⟨ho, _⟩ | ⟨ho, _⟩
          · subst ho
            simp at hx1
          · subst ho
            simp only [Option.toList_some, List.mem_singleton] at hx1
            rw [hx1]
            simp
        · exact ih w1 w2b wsb hrw x hx2

theorem flatten_append_singleton (l : List (List Trade)) (x : List Trade) :
    (l ++ [x]).flatten = l.flatten ++ x := by
  induction l with
  | nil => simp
  | cons y l ih => simp [ih]

/-- The window partition of a stream concatenates back to the stream. -/
theorem getWindows_flatten (cfg : AggConfig) (trades : List Trade)
    (ws : List (List Trade)) (h : getWindows cfg trades = Except.ok ws) :
    ws.flatten = trades := by
  unfold getWindows at h
  cases hrw : runWin cfg [] trades with
  | error e => simp [hrw] at h
  | ok r =>
    obtain ⟨w, ws0⟩ := r
    simp only [hrw, Except.ok.injEq] at h
    have hj := runWin_flatten cfg trades [] w ws0 hrw
    simp only [List.nil_append] at hj
    rw [← h]
    cases hw : w with
    | nil =>
      rw [hw] at hj
      simp only [List.isEmpty_nil, if_pos rfl, List.append_nil]
      simpa using hj
    | cons u us =>
      rw [hw] at hj
      simp only [List.isEmpty_cons, if_neg Bool.false_ne_true]
      rw [flatten_append_singleton]
      exact hj

/-- Every window of the partition is nonempty. -/
theorem getWindows_ne_nil (cfg : AggConfig) (trades : List Trade)
    (ws : List (List Trade)) (h : getWindows cfg trades = Except.ok ws) :
    ∀ x ∈ ws, x ≠ [] := by
  unfold getWindows at h
  cases hrw : runWin cfg [] trades with
  | error e => simp [hrw] at h
  | ok r =>
    obtain ⟨w, ws0⟩ := r
    simp only [hrw, Except.ok.injEq] at h
    intro x hx
    rw [← h] at hx
    rcases List.mem_append.mp hx with hx1 | hx2
    · exact runWin_windows_ne_nil cfg trades [] w ws0 hrw x hx1
    · cases hw : w with
      | nil =>
        rw [hw] at hx2
        simp at hx2
      | cons u us =>
        rw [hw] at hx2
        simp only [List.isEmpty_cons, if_neg Bool.false_ne_true,
          List.mem_singleton] at hx2
        rw [hx2]
        simp

end EnvIntraday

namespace EnvIntraday

theorem head?_append_ne_nil {l1 l2 : List Trade} (h : l1 ≠ []) :
    (l1 ++ l2).head? = l1.head? := by
  cases l1 with
  | nil => exact absurd rfl h
  | cons x xs => rfl

/-- Consecutive nonempty windows of a sorted stream are ordered: the
last trade of each window is not later than the first trade of the
next. -/
theorem sorted_flatten_chain :
    ∀ ws : List (List Trade), (∀ w ∈ ws, w ≠ []) →
    SortedT ws.flatten →
    List.Chain' (fun w1 w2 => w1 ≠ [] ∧ w2 ≠ [] ∧
      ∀ a ∈ w1.getLast?, ∀ b ∈ w2.head?, a.timestamp ≤ b.timestamp) ws := by
  intro ws
  induction ws with
  | nil => intro _ _; simp
  | cons w ws ih =>
    intro hne hs
    rw [List.flatten_cons] at hs
    obtain ⟨hw, hjoin, hcross⟩ := List.chain'_append.mp hs
    have ihh := ih (fun x hx => hne x (List.mem_cons_of_mem w hx)) hjoin
    cases ws with
    | nil => simp
    | cons w2 ws2 =>
      rw [List.chain'_cons]
      refine ⟨⟨hne w (by simp), hne w2 (by simp), ?_⟩, ihh⟩
      intro a ha b hb
      apply hcross a ha b
      rw [List.flatten_cons, head?_append_ne_nil (hne w2 (by simp))]
      exact hb

/-- C7: for every trade stream fed in timestamp order, the aggregator
partitions the stream into consecutive nonempty windows; the emitted
frames (boundary-sealed plus the finish-sealed leftover) are exactly the
frames of those windows, and each frame's open/close/high/low/volume/
money/ticks/time_start/time_end equal the respective statistics of the
trades folded into its window (`FrameStats`). -/
theorem C7_frame_invariants (cfg : AggConfig) (trades : List Trade)
    (hs : SortedT trades) :
    ∃ ws, getWindows cfg trades = Except.ok ws ∧
      getFrames cfg trades = Except.ok (ws.map frameOfW) ∧
      ws.flatten = trades ∧
      ∀ w ∈ ws, FrameStats w := by
  have hinv : ∀ f, (⟨none⟩ : AggState).openFrame = some f →
      ∀ t0 ∈ trades.head?, f.time_start ≤ t0.timestamp := by
    intro f hf
    simp at hf
  obtain ⟨⟨s2, fs⟩, hrun⟩ := runAgg_ok_of_sorted cfg trades ⟨none⟩ hs hinv
  have hgf : getFrames cfg trades =
      Except.ok (fs ++ (finish s2).2.toList) := by
    rw [getFrames, hrun]
  have heq := getFrames_eq_windows cfg trades
  cases hws : getWindows cfg trades with
  | error e =>
    rw [heq, hws] at hgf
    simp [Except.map] at hgf
  | ok ws =>
    refine ⟨ws, rfl, ?_, ?_, ?_⟩
    · rw [heq, hws]
      rfl
    · exact getWindows_flatten cfg trades ws hws
    · intro w hw
      exact frameOfW_stats (getWindows_ne_nil cfg trades ws hws w hw)

/-- Witness for C7 on a sorted two-trade stream at tick interval 2. -/
theorem C7_frame_invariants_witness :
    SortedT [⟨0, 1, 1⟩, ⟨5, 2, 3⟩] ∧
    (∃ ws, getWindows ⟨Method.tick, 2, none⟩ [⟨0, 1, 1⟩, ⟨5, 2, 3⟩] =
        Except.ok ws ∧
      getFrames ⟨Method.tick, 2, none⟩ [⟨0, 1, 1⟩, ⟨5, 2, 3⟩] =
        Except.ok (ws.map frameOfW) ∧
      ws.flatten = [⟨0, 1, 1⟩, ⟨5, 2, 3⟩] ∧
      ∀ w ∈ ws, FrameStats w) :=
  ⟨by norm_num [SortedT, List.chain'_cons],
   C7_frame_invariants ⟨Method.tick, 2, none⟩ [⟨0, 1, 1⟩, ⟨5, 2, 3⟩]
     (by norm_num [SortedT, List.chain'_cons])⟩

/-- The claim of C10 fails on the model: at tick interval 1, two trades
5 seconds apart are sealed into two one-trade frames; the first frame's
time_end is its own trade's timestamp (0), not the next frame's
time_start (5), so consecutive frames are not contiguous. -/
theorem C10_counterexample :
    getFrames ⟨Method.tick, 1, none⟩ [⟨0, 1, 1⟩, ⟨5, 1, 1⟩] =
      Except.ok [initFrame ⟨0, 1, 1⟩, initFrame ⟨5, 1, 1⟩] ∧
    (initFrame ⟨0, 1, 1⟩).time_end ≠ (initFrame ⟨5, 1, 1⟩).time_start := by
  constructor
  · with_unfolding_all rfl
  · with_unfolding_all decide

/-- C10 (amended): for every sorted trade stream and any method,
consecutive emitted frames do not overlap and appear in time order:
each frame's time_end is at most the next frame's time_start (equality
holds only when the next window's first trade shares the sealed
window's last timestamp, so gaps between frames are possible). -/
theorem C10_frame_order (cfg : AggConfig) (trades : List Trade)
    (hs : SortedT trades) (fs : List Frame)
    (hok : getFrames cfg trades = Except.ok fs) :
    List.Chain' (fun F G => F.time_end ≤ G.time_start) fs := by
  have heq := getFrames_eq_windows cfg trades
  cases hws : getWindows cfg trades with
  | error e =>
    rw [heq, hws] at hok
    simp [Except.map] at hok
  | ok ws =>
    rw [heq, hws] at hok
    simp only [Except.map, Except.ok.injEq] at hok
    subst hok
    have hne := getWindows_ne_nil cfg trades ws hws
    have hflat := getWindows_flatten cfg trades ws hws
    have hchain := sorted_flatten_chain ws hne (by rw [hflat]; exact hs)
    rw [List.chain'_map]
    refine List.Chain'.imp ?_ hchain
    intro w1 w2 hrel
    obtain ⟨h1, h2, hcross⟩ := hrel
    obtain ⟨a, ha⟩ := Option.isSome_iff_exists.mp
      (List.getLast?_isSome.mpr h1)
    obtain ⟨b, bs, hbs⟩ := List.exists_cons_of_ne_nil h2
    have hb : w2.head? = some b := by rw [hbs]; rfl
    have hst1 := ((frameOfW_stats h1).2.2.1 a (Option.mem_def.mpr ha)).2
    have hst2 := ((frameOfW_stats h2).2.1 b (Option.mem_def.mpr hb)).2
    rw [hst1, hst2]
    exact hcross a (Option.mem_def.mpr ha) b (Option.mem_def.mpr hb)

/-- Witness for the amended C10 on the counterexample stream: the two
frames are ordered, with a gap. -/
theorem C10_frame_order_witness :
    SortedT [⟨0, 1, 1⟩, ⟨5, 1, 1⟩] ∧
    getFrames ⟨Method.tick, 1, none⟩ [⟨0, 1, 1⟩, ⟨5, 1, 1⟩] =
      Except.ok [initFrame ⟨0, 1, 1⟩, initFrame ⟨5, 1, 1⟩] ∧
    List.Chain' (fun F G => F.time_end ≤ G.time_start)
      [initFrame ⟨0, 1, 1⟩, initFrame ⟨5, 1, 1⟩] :=
  ⟨by norm_num [SortedT, List.chain'_cons],
   by with_unfolding_all rfl,
   C10_frame_order ⟨Method.tick, 1, none⟩ [⟨0, 1, 1⟩, ⟨5, 1, 1⟩]
     (by norm_num [SortedT, List.chain'_cons]) _
     (by with_unfolding_all rfl)⟩

end EnvIntraday
